import Mathlib

/-!
Shallow embedding of the marketlib backtest core (backtest/Order.py,
backtest/Position.py) and of the MACD divergence detector
(strategy/MACDdivergence.py, strategy/base.py), translated from the Python
source.  Python floats are modelled as rationals; nullable values are
modelled as Option.  Where a float can be NaN (the MACD series) the value is
modelled as Option ℚ with none playing the role of NaN, and the comparison
operators replicate the IEEE rule that every comparison against NaN is false.
pandas Timestamps are modelled as rationals (their epoch-seconds value).
-/

namespace Marketlib

/-- Truncation toward zero: the behaviour of the Python int() conversion on
a finite float. -/
def pyInt (q : ℚ) : ℤ := if 0 ≤ q then ⌊q⌋ else ⌈q⌉

/-- backtest/Order.py, class Order: state after __init__ plus the mutable
execution fields.  String fields keep the literal values used by the source
("buy"/"sell", "new"/"filled"/"partially_filled"/"canceled"). -/
structure Order where
  side : String
  amount : ℚ
  price : ℚ
  order_type : String
  timestamp : ℚ
  status : String
  filled_quantity : ℚ
  avg_fill_price : Option ℚ
  fee : ℚ
  comment : String
  fill_time : Option ℚ
  fill_reason : Option String
  position_id : Option String
deriving Repr, DecidableEq

/-- Order.__init__ : the freshly created order. -/
def Order.init (side : String) (amount price timestamp : ℚ) (order_type : String) :
    Order :=
  { side := side
  , amount := amount
  , price := price
  , order_type := order_type
  , timestamp := timestamp
  , status := "new"
  , filled_quantity := 0
  , avg_fill_price := none
  , fee := 0
  , comment := ""
  , fill_time := none
  , fill_reason := none
  , position_id := none }

/-- Order.fill: record a (partial) fill.  No-op when quantity ≤ 0; otherwise
updates the running weighted average fill price, accumulates quantity and
fee, overwrites fill_time/fill_reason, and recomputes the status. -/
def Order.fill (o : Order) (quantity fill_price fee : ℚ) (fill_time : Option ℚ)
    (reason : Option String) : Order :=
  if quantity ≤ 0 then o
  else
    let prev_qty := o.filled_quantity
    let new_qty := prev_qty + quantity
    let avg : ℚ :=
      match o.avg_fill_price with
      | none => fill_price
      | some a => (a * prev_qty + fill_price * quantity) / new_qty
    { o with
      filled_quantity := new_qty
      , avg_fill_price := some avg
      , fee := o.fee + fee
      , fill_time := fill_time
      , fill_reason := reason
      , status := if o.amount ≤ new_qty then "filled" else "partially_filled" }

/-- Order.cancel. -/
def Order.cancel (o : Order) (reason : String) : Order :=
  { o with status := "canceled", comment := reason }

/-- Order.link_to_position. -/
def Order.link_to_position (o : Order) (pid : String) : Order :=
  { o with position_id := some pid }

/-- One call to Order.fill, as data (quantity, price, fee, time, reason). -/
structure Fill where
  quantity : ℚ
  fill_price : ℚ
  fee : ℚ
  fill_time : Option ℚ
  reason : Option String
deriving Repr, DecidableEq

/-- A sequence of Order.fill calls applied in order. -/
def Order.applyFills (o : Order) (fills : List Fill) : Order :=
  fills.foldl (fun o f => o.fill f.quantity f.fill_price f.fee f.fill_time f.reason) o

/-- Total filled quantity of a list of fills. -/
def fillsQty (fills : List Fill) : ℚ := (fills.map (fun f => f.quantity)).sum

/-- Total notional (price times quantity) of a list of fills. -/
def fillsNotional (fills : List Fill) : ℚ :=
  (fills.map (fun f => f.fill_price * f.quantity)).sum

/-- One per-bar snapshot appended by Position.update_bar to
unrealized_pnl_history. -/
structure Snapshot where
  time : ℚ
  close : ℚ
  unrealized : ℚ
  size : ℚ
  stop : Option ℚ
  tp : Option ℚ
  highest : ℚ
  lowest : ℚ
  mfe_R : ℚ
  mae_R : ℚ
  mfe_cur : ℚ
  mae_cur : ℚ
deriving Repr, DecidableEq

/-- The trade record dict returned by Position.reduce. -/
structure Trade where
  side : String
  entry_time : ℚ
  entry_price : ℚ
  exit_time : ℚ
  exit_price : ℚ
  size : ℚ
  fee_in : ℚ
  fee_out : ℚ
  pnl_net : ℚ
  reason : String
  mfe_R : ℚ
  mae_R : ℚ
  mfe_cur : ℚ
  mae_cur : ℚ
deriving Repr, DecidableEq

/-- backtest/Position.py, class Position.  The optional multi-target plan
(targets) is not modelled: no verified operation reads or writes it. -/
structure Position where
  market : String
  side : String
  dir : ℚ
  size : ℚ
  entry_price : ℚ
  entry_time : ℚ
  contract_value : ℚ
  stop : Option ℚ
  tp : Option ℚ
  risk_amount : Option ℚ
  highest : ℚ
  lowest : ℚ
  fee_in : ℚ
  fee_out_cum : ℚ
  realized_pnl : ℚ
  closed : Bool
  exit_price : Option ℚ
  exit_time : Option ℚ
  exit_reason : Option String
  mfe_R : ℚ
  mae_R : ℚ
  mfe_cur : ℚ
  mae_cur : ℚ
  orders : List Order
  unrealized_pnl_history : List Snapshot
deriving Repr, DecidableEq

/-- Position.position_id_generator:
str(int(entry_price * entry_time.timestamp() * size + 123456)). -/
def positionIdGen (entry_price entry_time size : ℚ) : String :=
  toString (pyInt (entry_price * entry_time * size + 123456))

/-- Position.__init__: sets the economics, realizes -fee_in immediately, and
synthesizes and fully fills an initiating Order. -/
def Position.init (market side : String) (size entry_price entry_time : ℚ)
    (entry_order_type : String) (stop tp : Option ℚ) (contract_value fee_in : ℚ)
    (risk_amount : Option ℚ) : Position :=
  let o0 := Order.init (if side = "long" then "buy" else "sell")
      size entry_price entry_time entry_order_type
  let o1 := o0.fill size entry_price fee_in (some entry_time)
      (some "init position order")
  let o2 := o1.link_to_position (positionIdGen entry_price entry_time size)
  { market := market
  , side := side
  , dir := if side = "long" then 1 else -1
  , size := size
  , entry_price := entry_price
  , entry_time := entry_time
  , contract_value := contract_value
  , stop := stop
  , tp := tp
  , risk_amount := risk_amount
  , highest := entry_price
  , lowest := entry_price
  , fee_in := fee_in
  , fee_out_cum := 0
  , realized_pnl := -fee_in
  , closed := false
  , exit_price := none
  , exit_time := none
  , exit_reason := none
  , mfe_R := 0
  , mae_R := 0
  , mfe_cur := 0
  , mae_cur := 0
  , orders := [o2]
  , unrealized_pnl_history := [] }

/-- Position.is_open: (not closed) and size > 0. -/
def Position.is_open (p : Position) : Bool := !p.closed && decide (0 < p.size)

/-- Position.unrealized_pnl. -/
def Position.unrealized_pnl (p : Position) (mark_price : ℚ) : ℚ :=
  (mark_price - p.entry_price) * p.dir * p.size * p.contract_value

/-- Position.reduce: partially close; returns the updated position and the
trade record (none models the empty dict returned by the guard). -/
def Position.reduce (p : Position) (exit_size exit_price exit_time fee_out : ℚ)
    (reason : String) : Position × Option Trade :=
  if !p.is_open || decide (exit_size ≤ 0) then (p, none)
  else
    let exec_size := min exit_size p.size
    let gross := (exit_price - p.entry_price) * p.dir * exec_size * p.contract_value
    let pnl_net := gross - fee_out
    let trade : Trade :=
      { side := p.side
      , entry_time := p.entry_time
      , entry_price := p.entry_price
      , exit_time := exit_time
      , exit_price := exit_price
      , size := exec_size
      , fee_in := p.fee_in
      , fee_out := fee_out
      , pnl_net := pnl_net
      , reason := reason
      , mfe_R := p.mfe_R
      , mae_R := p.mae_R
      , mfe_cur := p.mfe_cur
      , mae_cur := p.mae_cur }
    let new_size := p.size - exec_size
    let q := { p with
      realized_pnl := p.realized_pnl + pnl_net
      , fee_out_cum := p.fee_out_cum + fee_out
      , size := new_size }
    let q :=
      if new_size ≤ 0 then
        { q with
          closed := true
          , exit_price := some exit_price
          , exit_time := some exit_time
          , exit_reason := some reason }
      else q
    (q, some trade)

/-- Position.close: full exit of the remaining size. -/
def Position.close (p : Position) (exit_price exit_time fee_out : ℚ)
    (reason : String) : Position × Option Trade :=
  if !p.is_open then (p, none)
  else p.reduce p.size exit_price exit_time fee_out reason

/-- Position._scale_in: increase size, recompute the VWAP entry price, book
the fee against realized PnL, widen the extremes. -/
def Position.scale_in (p : Position) (add_size add_price fee : ℚ) : Position :=
  if add_size ≤ 0 then p
  else
    let old_notional := p.entry_price * p.size
    let add_notional := add_price * add_size
    let new_size := p.size + add_size
    if new_size ≤ 0 then p
    else
      { p with
        entry_price := (old_notional + add_notional) / new_size
        , size := new_size
        , realized_pnl := p.realized_pnl - fee
        , highest := max p.highest add_price
        , lowest := min p.lowest add_price }

/-- Position.apply_fill: append the (filled) order to the audit trail, then
scale in when the order side adds exposure, else reduce.  Order.fill is
invoked with only quantity, price and fee, as in the source. -/
def Position.apply_fill (p : Position) (order : Order)
    (quantity fill_price fee : ℚ) (fill_time : Option ℚ) : Position :=
  let o := order.fill quantity fill_price fee none none
  let p := { p with orders := p.orders ++ [o] }
  let adds_exposure :=
    (p.side = "long" ∧ o.side = "buy") ∨ (p.side = "short" ∧ o.side = "sell")
  if adds_exposure then p.scale_in quantity fill_price fee
  else (p.reduce quantity fill_price (fill_time.getD p.entry_time) fee
        "order_reduce").1

/-- Position.update_bar: refresh the extremes, update the currency and
R-denominated excursions, and append the per-bar snapshot. -/
def Position.update_bar (p : Position) (ts high low close : ℚ) : Position :=
  if !p.is_open then p
  else
    let highest := max p.highest high
    let lowest := min p.lowest low
    let favorable_cur := (high - p.entry_price) * p.dir * p.size * p.contract_value
    let adverse_cur := (low - p.entry_price) * p.dir * p.size * p.contract_value
    let mfe_cur := max p.mfe_cur favorable_cur
    let mae_cur := min p.mae_cur adverse_cur
    let mfeR :=
      match p.stop with
      | some s =>
          max p.mfe_R ((high - p.entry_price) * p.dir /
            max (1 / 1000000000000) |p.entry_price - s|)
      | none => p.mfe_R
    let maeR :=
      match p.stop with
      | some s =>
          min p.mae_R ((low - p.entry_price) * p.dir /
            max (1 / 1000000000000) |p.entry_price - s|)
      | none => p.mae_R
    let unreal := (close - p.entry_price) * p.dir * p.size * p.contract_value
    { p with
      highest := highest
      , lowest := lowest
      , mfe_cur := mfe_cur
      , mae_cur := mae_cur
      , mfe_R := mfeR
      , mae_R := maeR
      , unrealized_pnl_history := p.unrealized_pnl_history ++
        [{ time := ts
         , close := close
         , unrealized := unreal
         , size := p.size
         , stop := p.stop
         , tp := p.tp
         , highest := highest
         , lowest := lowest
         , mfe_R := mfeR
         , mae_R := maeR
         , mfe_cur := mfe_cur
         , mae_cur := mae_cur }] }

/-- Position.set_stop. -/
def Position.set_stop (p : Position) (stop : Option ℚ) : Position :=
  { p with stop := stop }

/-- Position.set_tp. -/
def Position.set_tp (p : Position) (tp : Option ℚ) : Position :=
  { p with tp := tp }

/-- Position.trail_by_atr: ATR trailing stop, tightens only. -/
def Position.trail_by_atr (p : Position) (atr mult : ℚ) : Position :=
  if !p.is_open then p
  else if p.side = "long" then
    let new_stop := p.highest - mult * atr
    { p with stop := some (max (p.stop.getD new_stop) new_stop) }
  else
    let new_stop := p.lowest + mult * atr
    { p with stop := some (min (p.stop.getD new_stop) new_stop) }

/-- Position.trail_by_extremes: trail from the extremes with a fixed offset,
tightens only. -/
def Position.trail_by_extremes (p : Position) (offset : ℚ) : Position :=
  if !p.is_open then p
  else if p.side = "long" then
    let new_stop := p.highest - offset
    { p with stop := some (max (p.stop.getD new_stop) new_stop) }
  else
    let new_stop := p.lowest + offset
    { p with stop := some (min (p.stop.getD new_stop) new_stop) }

/-- The result dict of Position.check_stop_tp.  The price field carries
self.stop or self.tp, hence is optional, exactly as the source dict does. -/
structure HitResult where
  price : Option ℚ
  reason : String
deriving Repr, DecidableEq

/-- Position.check_stop_tp: read-only intrabar trigger check with tie-break
priority.  The source mutates no state; here that is reflected by the
function returning only the result descriptor. -/
def Position.check_stop_tp (p : Position) (high low : ℚ) (priority : String) :
    Option HitResult :=
  if !p.is_open then none
  else
    let hit_tp :=
      if p.side = "long" then
        match p.tp with
        | some t => decide (t ≤ high)
        | none => false
      else
        match p.tp with
        | some t => decide (low ≤ t)
        | none => false
    let hit_sl :=
      if p.side = "long" then
        match p.stop with
        | some s => decide (low ≤ s)
        | none => false
      else
        match p.stop with
        | some s => decide (s ≤ high)
        | none => false
    if hit_tp && hit_sl then
      if priority = "stop-first" then some { price := p.stop, reason := "stop" }
      else some { price := p.tp, reason := "tp" }
    else if hit_tp then some { price := p.tp, reason := "tp" }
    else if hit_sl then some { price := p.stop, reason := "stop" }
    else none

/-- A state-changing call on a Position, as data, covering the operations the
backtest loop performs: per-bar updates, trailing, scale-ins, order fills and
exits. -/
inductive Op where
  | updateBar (ts high low close : ℚ)
  | trailByAtr (atr mult : ℚ)
  | trailByExtremes (offset : ℚ)
  | scaleIn (add_size add_price fee : ℚ)
  | applyFill (order : Order) (quantity fill_price fee : ℚ) (fill_time : Option ℚ)
  | reduceOp (exit_size exit_price exit_time fee_out : ℚ) (reason : String)
  | closeOp (exit_price exit_time fee_out : ℚ) (reason : String)
deriving Repr, DecidableEq

/-- Apply one Op to a position (the trade record of reduce and close is
discarded, as the caller of the method may do). -/
def Position.applyOp (p : Position) : Op → Position
  | .updateBar ts h l c => p.update_bar ts h l c
  | .trailByAtr a m => p.trail_by_atr a m
  | .trailByExtremes off => p.trail_by_extremes off
  | .scaleIn s pr f => p.scale_in s pr f
  | .applyFill o q pr f t => p.apply_fill o q pr f t
  | .reduceOp s pr t f r => (p.reduce s pr t f r).1
  | .closeOp pr t f r => (p.close pr t f r).1

/-- Apply a sequence of Ops left to right. -/
def Position.applyOps (p : Position) (ops : List Op) : Position :=
  ops.foldl Position.applyOp p

/-- One exit call: either Position.reduce or Position.close, with its
arguments. -/
inductive ExitCall where
  | red (exit_size exit_price exit_time fee_out : ℚ) (reason : String)
  | cls (exit_price exit_time fee_out : ℚ) (reason : String)
deriving Repr, DecidableEq

/-- Run one exit call. -/
def Position.runExit (p : Position) : ExitCall → Position × Option Trade
  | .red s pr t f r => p.reduce s pr t f r
  | .cls pr t f r => p.close pr t f r

/-- Run a sequence of exit calls, collecting the returned trade records. -/
def Position.runExits (p : Position) : List ExitCall → Position × List (Option Trade)
  | [] => (p, [])
  | c :: cs =>
    let r := p.runExit c
    let rest := r.1.runExits cs
    (rest.1, r.2 :: rest.2)

/-- The long position of the realized-PnL test case: size 1 at entry 100 with
entry fee 1 (entry time 0). -/
def pnlPosition : Position :=
  Position.init "BTC" "long" 1 100 0 "market" none none 1 1 none

/-- The long position of the stop/tp tie-break test case: stop 90, tp 110. -/
def stopTpPosition : Position :=
  Position.init "BTC" "long" 1 100 0 "market" (some 90) (some 110) 1 0 none

/-- A position that has been fully closed. -/
def closedPosition : Position := (pnlPosition.close 110 1 1 "close").1

/-- C1: constructing a long Position with size 1, entry_price 100, fee_in 1
starts realized_pnl at -1; close(110, t, fee_out 1) then yields
realized_pnl = -1 + (110 - 100) * 1 - 1 = 8 exactly and leaves the position
closed. -/
theorem c1_realized_pnl_round_trip :
    pnlPosition.realized_pnl = -1 ∧
    (pnlPosition.close 110 1 1 "close").1.realized_pnl = 8 ∧
    (pnlPosition.close 110 1 1 "close").1.closed = true := by
  refine ⟨by norm_num [pnlPosition, Position.init], ?_, ?_⟩ <;>
    norm_num [pnlPosition, Position.init, Position.close, Position.reduce,
      Position.is_open]

theorem reduce_of_closed (p : Position) (h : p.closed = true)
    (s pr t f : ℚ) (r : String) : p.reduce s pr t f r = (p, none) := by
  simp [Position.reduce, Position.is_open, h]

theorem close_of_closed (p : Position) (h : p.closed = true)
    (pr t f : ℚ) (r : String) : p.close pr t f r = (p, none) := by
  simp [Position.close, Position.is_open, h]

/-- C2: once closed = true, every subsequent sequence of reduce or close
calls returns only empty records and leaves every field of the position
unchanged, for all arguments. -/
theorem c2_closed_exit_noop (p : Position) (h : p.closed = true)
    (calls : List ExitCall) :
    p.runExits calls = (p, calls.map (fun _ => (none : Option Trade))) := by
  induction calls with
  | nil => simp [Position.runExits]
  | cons c cs ih =>
      have hc : p.runExit c = (p, none) := by
        cases c with
        | red s pr t f r => simpa [Position.runExit] using reduce_of_closed p h s pr t f r
        | cls pr t f r => simpa [Position.runExit] using close_of_closed p h pr t f r
      simp [Position.runExits, hc, ih]

/-- Witness for C2 at the concrete closed position, with one reduce and one
close call. -/
theorem c2_closed_exit_noop_witness :
    closedPosition.closed = true ∧
    closedPosition.runExits
        [ExitCall.red 1 50 2 0 "x", ExitCall.cls 60 3 0 "y"] =
      (closedPosition, [none, none]) := by
  have hc : closedPosition.closed = true := by
    norm_num [closedPosition, pnlPosition, Position.init, Position.close,
      Position.reduce, Position.is_open]
  exact ⟨hc, c2_closed_exit_noop closedPosition hc
    [ExitCall.red 1 50 2 0 "x", ExitCall.cls 60 3 0 "y"]⟩

/-- C3: for an open position and an over-specified exit request
(exit_size > size), reduce clamps the executed size to min(exit_size, size),
zeroes the size, flips closed, and freezes exit_price, exit_time and
exit_reason to the arguments of this call. -/
theorem c3_overreduce_clamps_and_closes (p : Position)
    (exit_size exit_price exit_time fee_out : ℚ) (reason : String)
    (hopen : p.is_open = true) (hover : p.size < exit_size) :
    (p.reduce exit_size exit_price exit_time fee_out reason).1.size = 0 ∧
    (p.reduce exit_size exit_price exit_time fee_out reason).1.closed = true ∧
    (p.reduce exit_size exit_price exit_time fee_out reason).1.exit_price = some exit_price ∧
    (p.reduce exit_size exit_price exit_time fee_out reason).1.exit_time = some exit_time ∧
    (p.reduce exit_size exit_price exit_time fee_out reason).1.exit_reason = some reason ∧
    ∃ t, (p.reduce exit_size exit_price exit_time fee_out reason).2 = some t ∧
      t.size = min exit_size p.size := by
  have hsize : 0 < p.size := by
    have h := hopen
    simp only [Position.is_open, Bool.and_eq_true, decide_eq_true_eq] at h
    exact h.2
  have hpos : ¬exit_size ≤ 0 := not_le.mpr (lt_trans hsize hover)
  have hguard : (!p.is_open || decide (exit_size ≤ 0)) = false := by
    simp [hopen, hpos]
  have hmin : min exit_size p.size = p.size := min_eq_right (le_of_lt hover)
  have hz : p.size - min exit_size p.size ≤ 0 := by
    rw [hmin]; exact sub_nonpos.mpr le_rfl
  simp [Position.reduce, hguard, hz, hmin]

/-- Witness for C3: reducing the open size-1 position by 2. -/
theorem c3_overreduce_witness :
    pnlPosition.is_open = true ∧ pnlPosition.size < 2 ∧
    (pnlPosition.reduce 2 110 1 0 "tp").1.size = 0 ∧
    (pnlPosition.reduce 2 110 1 0 "tp").1.closed = true := by
  have h1 : pnlPosition.is_open = true := by
    norm_num [pnlPosition, Position.init, Position.is_open]
  have h2 : pnlPosition.size < 2 := by
    norm_num [pnlPosition, Position.init]
  refine ⟨h1, h2, ?_, ?_⟩
  · exact (c3_overreduce_clamps_and_closes pnlPosition 2 110 1 0 "tp" h1 h2).1
  · exact (c3_overreduce_clamps_and_closes pnlPosition 2 110 1 0 "tp" h1 h2).2.1

/-- C5: for the long open position with stop 90 and tp 110 and a bar with
high 115 and low 85 (both triggers crossed), check_stop_tp resolves by
priority: stop-first returns price 90 reason "stop", tp-first returns price
110 reason "tp".  check_stop_tp is a read-only evaluation: in this embedding
it is a pure function of the position and returns only the descriptor, so no
position state can change. -/
theorem c5_stop_tp_priority :
    stopTpPosition.check_stop_tp 115 85 "stop-first" =
      some { price := some 90, reason := "stop" } ∧
    stopTpPosition.check_stop_tp 115 85 "tp-first" =
      some { price := some 110, reason := "tp" } := by
  constructor <;>
    norm_num [stopTpPosition, Position.init, Position.check_stop_tp,
      Position.is_open]
  decide

/-- A list of update_bar calls: (ts, high, low, close) per bar. -/
def Position.applyBars (p : Position) (bars : List (ℚ × ℚ × ℚ × ℚ)) : Position :=
  bars.foldl (fun q b => q.update_bar b.1 b.2.1 b.2.2.1 b.2.2.2) p

theorem update_bar_mfe_mae (p : Position) (ts h l c : ℚ) :
    p.mfe_cur ≤ (p.update_bar ts h l c).mfe_cur ∧
    (p.update_bar ts h l c).mae_cur ≤ p.mae_cur := by
  unfold Position.update_bar
  by_cases hop : (!p.is_open) = true
  · simp [hop]
  · simp [hop, le_max_left, min_le_left]

theorem applyBars_mfe_mae (bars : List (ℚ × ℚ × ℚ × ℚ)) :
    ∀ p : Position, p.mfe_cur ≤ (p.applyBars bars).mfe_cur ∧
      (p.applyBars bars).mae_cur ≤ p.mae_cur := by
  induction bars with
  | nil => intro p; simp [Position.applyBars]
  | cons b bs ih =>
      intro p
      have h1 := update_bar_mfe_mae p b.1 b.2.1 b.2.2.1 b.2.2.2
      have h2 := ih (p.update_bar b.1 b.2.1 b.2.2.1 b.2.2.2)
      have hfold : p.applyBars (b :: bs) =
          (p.update_bar b.1 b.2.1 b.2.2.1 b.2.2.2).applyBars bs := rfl
      rw [hfold]
      exact ⟨le_trans h1.1 h2.1, le_trans h2.2 h1.2⟩

/-- C6: for every open position and every sequence of update_bar calls,
mfe_cur is non-decreasing and mae_cur is non-increasing across the calls
(stated for the whole trace from any starting state, which gives every
successive pair of calls by instantiating at the intermediate state). -/
theorem c6_excursion_monotone (p : Position) (_hcl : p.closed = false)
    (_hsz : 0 < p.size) (bars : List (ℚ × ℚ × ℚ × ℚ)) :
    p.mfe_cur ≤ (p.applyBars bars).mfe_cur ∧
    (p.applyBars bars).mae_cur ≤ p.mae_cur :=
  applyBars_mfe_mae bars p

/-- Witness for C6 at a concrete open position and bar sequence. -/
theorem c6_excursion_monotone_witness :
    pnlPosition.closed = false ∧ 0 < pnlPosition.size ∧
    (pnlPosition.mfe_cur ≤
        (pnlPosition.applyBars [(1, 120, 80, 100), (2, 90, 70, 80)]).mfe_cur ∧
      (pnlPosition.applyBars [(1, 120, 80, 100), (2, 90, 70, 80)]).mae_cur ≤
        pnlPosition.mae_cur) := by
  have h1 : pnlPosition.closed = false := rfl
  have h2 : 0 < pnlPosition.size := by norm_num [pnlPosition, Position.init]
  exact ⟨h1, h2, c6_excursion_monotone pnlPosition h1 h2 _⟩

/-- Boolean order on optional stops used for long trailing: none is below
everything, a concrete stop only ever rises. -/
def stopLe : Option ℚ → Option ℚ → Bool
  | none, _ => true
  | some _, none => false
  | some a, some b => decide (a ≤ b)

/-- Boolean order on optional stops used for short trailing: none is below
everything, a concrete stop only ever falls. -/
def stopGe : Option ℚ → Option ℚ → Bool
  | none, _ => true
  | some _, none => false
  | some a, some b => decide (b ≤ a)

theorem stopLe_refl (x : Option ℚ) : stopLe x x = true := by
  cases x <;> simp [stopLe]

theorem stopGe_refl (x : Option ℚ) : stopGe x x = true := by
  cases x <;> simp [stopGe]

theorem stopLe_trans (a b c : Option ℚ) (h1 : stopLe a b = true)
    (h2 : stopLe b c = true) : stopLe a c = true := by
  cases a with
  | none => simp [stopLe]
  | some x =>
      cases b with
      | none => simp [stopLe] at h1
      | some y =>
          cases c with
          | none => simp [stopLe] at h2
          | some z =>
              simp only [stopLe, decide_eq_true_eq] at h1 h2 ⊢
              exact le_trans h1 h2

theorem stopGe_trans (a b c : Option ℚ) (h1 : stopGe a b = true)
    (h2 : stopGe b c = true) : stopGe a c = true := by
  cases a with
  | none => simp [stopGe]
  | some x =>
      cases b with
      | none => simp [stopGe] at h1
      | some y =>
          cases c with
          | none => simp [stopGe] at h2
          | some z =>
              simp only [stopGe, decide_eq_true_eq] at h1 h2 ⊢
              exact le_trans h2 h1

theorem update_bar_stop_eq (p : Position) (ts h l c : ℚ) :
    (p.update_bar ts h l c).stop = p.stop := by
  unfold Position.update_bar
  by_cases hop : (!p.is_open) = true <;> simp [hop]

theorem update_bar_side_eq (p : Position) (ts h l c : ℚ) :
    (p.update_bar ts h l c).side = p.side := by
  unfold Position.update_bar
  by_cases hop : (!p.is_open) = true <;> simp [hop]

theorem scale_in_stop_eq (p : Position) (a b c : ℚ) :
    (p.scale_in a b c).stop = p.stop := by
  unfold Position.scale_in
  by_cases h1 : a ≤ 0
  · simp [h1]
  · by_cases h2 : p.size + a ≤ 0 <;> simp [h1, h2]

theorem scale_in_side_eq (p : Position) (a b c : ℚ) :
    (p.scale_in a b c).side = p.side := by
  unfold Position.scale_in
  by_cases h1 : a ≤ 0
  · simp [h1]
  · by_cases h2 : p.size + a ≤ 0 <;> simp [h1, h2]

theorem reduce_fst_stop_eq (p : Position) (s pr t f : ℚ) (r : String) :
    (p.reduce s pr t f r).1.stop = p.stop := by
  unfold Position.reduce
  by_cases hg : (!p.is_open || decide (s ≤ 0)) = true
  · simp [hg]
  · by_cases hz : p.size - min s p.size ≤ 0 <;> simp [hg, hz]

theorem reduce_fst_side_eq (p : Position) (s pr t f : ℚ) (r : String) :
    (p.reduce s pr t f r).1.side = p.side := by
  unfold Position.reduce
  by_cases hg : (!p.is_open || decide (s ≤ 0)) = true
  · simp [hg]
  · by_cases hz : p.size - min s p.size ≤ 0 <;> simp [hg, hz]

theorem close_fst_stop_eq (p : Position) (pr t f : ℚ) (r : String) :
    (p.close pr t f r).1.stop = p.stop := by
  unfold Position.close
  by_cases hg : (!p.is_open) = true
  · simp [hg]
  · simp [hg, reduce_fst_stop_eq]

theorem close_fst_side_eq (p : Position) (pr t f : ℚ) (r : String) :
    (p.close pr t f r).1.side = p.side := by
  unfold Position.close
  by_cases hg : (!p.is_open) = true
  · simp [hg]
  · simp [hg, reduce_fst_side_eq]

theorem apply_fill_stop_eq (p : Position) (o : Order) (q pr f : ℚ)
    (t : Option ℚ) : (p.apply_fill o q pr f t).stop = p.stop := by
  unfold Position.apply_fill
  by_cases hadd : (p.side = "long" ∧
      (o.fill q pr f none none).side = "buy") ∨
      (p.side = "short" ∧ (o.fill q pr f none none).side = "sell")
  · simp [hadd, scale_in_stop_eq]
  · simp [hadd, reduce_fst_stop_eq]

theorem apply_fill_side_eq (p : Position) (o : Order) (q pr f : ℚ)
    (t : Option ℚ) : (p.apply_fill o q pr f t).side = p.side := by
  unfold Position.apply_fill
  by_cases hadd : (p.side = "long" ∧
      (o.fill q pr f none none).side = "buy") ∨
      (p.side = "short" ∧ (o.fill q pr f none none).side = "sell")
  · simp [hadd, scale_in_side_eq]
  · simp [hadd, reduce_fst_side_eq]

theorem trail_by_atr_stop_le (p : Position) (hside : p.side = "long")
    (a m : ℚ) : stopLe p.stop (p.trail_by_atr a m).stop = true := by
  unfold Position.trail_by_atr
  by_cases hop : (!p.is_open) = true
  · simp [hop, stopLe_refl]
  · cases hstop : p.stop with
    | none => simp [hop, hside, hstop, stopLe]
    | some v =>
        simp [hop, hside, hstop, stopLe, le_max_left]

theorem trail_by_atr_stop_ge (p : Position) (hside : p.side = "short")
    (a m : ℚ) : stopGe p.stop (p.trail_by_atr a m).stop = true := by
  unfold Position.trail_by_atr
  have hlong : ¬p.side = "long" := by simp [hside]
  by_cases hop : (!p.is_open) = true
  · simp [hop, stopGe_refl]
  · cases hstop : p.stop with
    | none => simp [hop, hlong, hstop, stopGe]
    | some v =>
        simp [hop, hlong, hstop, stopGe, min_le_left]

theorem trail_by_extremes_stop_le (p : Position) (hside : p.side = "long")
    (off : ℚ) : stopLe p.stop (p.trail_by_extremes off).stop = true := by
  unfold Position.trail_by_extremes
  by_cases hop : (!p.is_open) = true
  · simp [hop, stopLe_refl]
  · cases hstop : p.stop with
    | none => simp [hop, hside, hstop, stopLe]
    | some v =>
        simp [hop, hside, hstop, stopLe, le_max_left]

theorem trail_by_extremes_stop_ge (p : Position) (hside : p.side = "short")
    (off : ℚ) : stopGe p.stop (p.trail_by_extremes off).stop = true := by
  unfold Position.trail_by_extremes
  have hlong : ¬p.side = "long" := by simp [hside]
  by_cases hop : (!p.is_open) = true
  · simp [hop, stopGe_refl]
  · cases hstop : p.stop with
    | none => simp [hop, hlong, hstop, stopGe]
    | some v =>
        simp [hop, hlong, hstop, stopGe, min_le_left]

theorem trail_by_atr_side_eq (p : Position) (a m : ℚ) :
    (p.trail_by_atr a m).side = p.side := by
  unfold Position.trail_by_atr
  by_cases hop : (!p.is_open) = true
  · simp [hop]
  · by_cases hs : p.side = "long" <;> simp [hop, hs]

theorem trail_by_extremes_side_eq (p : Position) (off : ℚ) :
    (p.trail_by_extremes off).side = p.side := by
  unfold Position.trail_by_extremes
  by_cases hop : (!p.is_open) = true
  · simp [hop]
  · by_cases hs : p.side = "long" <;> simp [hop, hs]

theorem applyOp_side_eq (p : Position) (op : Op) :
    (p.applyOp op).side = p.side := by
  cases op with
  | updateBar ts h l c => exact update_bar_side_eq p ts h l c
  | trailByAtr a m => exact trail_by_atr_side_eq p a m
  | trailByExtremes off => exact trail_by_extremes_side_eq p off
  | scaleIn a b c => exact scale_in_side_eq p a b c
  | applyFill o q pr f t => exact apply_fill_side_eq p o q pr f t
  | reduceOp s pr t f r => exact reduce_fst_side_eq p s pr t f r
  | closeOp pr t f r => exact close_fst_side_eq p pr t f r

theorem applyOp_stopLe (p : Position) (hside : p.side = "long") (op : Op) :
    stopLe p.stop (p.applyOp op).stop = true := by
  cases op with
  | updateBar ts h l c => rw [Position.applyOp, update_bar_stop_eq]; exact stopLe_refl _
  | trailByAtr a m => exact trail_by_atr_stop_le p hside a m
  | trailByExtremes off => exact trail_by_extremes_stop_le p hside off
  | scaleIn a b c => rw [Position.applyOp, scale_in_stop_eq]; exact stopLe_refl _
  | applyFill o q pr f t => rw [Position.applyOp, apply_fill_stop_eq]; exact stopLe_refl _
  | reduceOp s pr t f r => rw [Position.applyOp, reduce_fst_stop_eq]; exact stopLe_refl _
  | closeOp pr t f r => rw [Position.applyOp, close_fst_stop_eq]; exact stopLe_refl _

theorem applyOp_stopGe (p : Position) (hside : p.side = "short") (op : Op) :
    stopGe p.stop (p.applyOp op).stop = true := by
  cases op with
  | updateBar ts h l c => rw [Position.applyOp, update_bar_stop_eq]; exact stopGe_refl _
  | trailByAtr a m => exact trail_by_atr_stop_ge p hside a m
  | trailByExtremes off => exact trail_by_extremes_stop_ge p hside off
  | scaleIn a b c => rw [Position.applyOp, scale_in_stop_eq]; exact stopGe_refl _
  | applyFill o q pr f t => rw [Position.applyOp, apply_fill_stop_eq]; exact stopGe_refl _
  | reduceOp s pr t f r => rw [Position.applyOp, reduce_fst_stop_eq]; exact stopGe_refl _
  | closeOp pr t f r => rw [Position.applyOp, close_fst_stop_eq]; exact stopGe_refl _

/-- C7: across any sequence of position operations (bar updates, trailing
calls, fills, exits), the stop of a long position never moves down and the
stop of a short position never moves up; trailing only tightens.  The
highest extreme used by trail_by_extremes is itself non-decreasing across
update_bar calls, so this covers every sequence of trailing calls with
non-decreasing highest. -/
theorem c7_trailing_stop_monotone (p : Position) (ops : List Op) :
    (p.side = "long" → stopLe p.stop (p.applyOps ops).stop = true) ∧
    (p.side = "short" → stopGe p.stop (p.applyOps ops).stop = true) := by
  induction ops generalizing p with
  | nil => exact ⟨fun _ => stopLe_refl _, fun _ => stopGe_refl _⟩
  | cons o os ih =>
      have hfold : p.applyOps (o :: os) = (p.applyOp o).applyOps os := rfl
      rw [hfold]
      constructor
      · intro hside
        have hside2 : (p.applyOp o).side = "long" := by
          rw [applyOp_side_eq]; exact hside
        exact stopLe_trans _ _ _ (applyOp_stopLe p hside o)
          ((ih (p.applyOp o)).1 hside2)
      · intro hside
        have hside2 : (p.applyOp o).side = "short" := by
          rw [applyOp_side_eq]; exact hside
        exact stopGe_trans _ _ _ (applyOp_stopGe p hside o)
          ((ih (p.applyOp o)).2 hside2)

/-- Witness for C7: a long position through two trailing calls around a bar
update. -/
theorem c7_trailing_stop_monotone_witness :
    stopTpPosition.side = "long" ∧
    stopLe stopTpPosition.stop
      (stopTpPosition.applyOps
        [Op.trailByExtremes 5, Op.updateBar 1 120 95 110,
         Op.trailByExtremes 5]).stop = true :=
  ⟨rfl, (c7_trailing_stop_monotone stopTpPosition
    [Op.trailByExtremes 5, Op.updateBar 1 120 95 110,
     Op.trailByExtremes 5]).1 rfl⟩

theorem update_bar_size_eq (p : Position) (ts h l c : ℚ) :
    (p.update_bar ts h l c).size = p.size := by
  unfold Position.update_bar
  by_cases hop : (!p.is_open) = true <;> simp [hop]

theorem update_bar_closed_eq (p : Position) (ts h l c : ℚ) :
    (p.update_bar ts h l c).closed = p.closed := by
  unfold Position.update_bar
  by_cases hop : (!p.is_open) = true <;> simp [hop]

theorem trail_by_atr_size_eq (p : Position) (a m : ℚ) :
    (p.trail_by_atr a m).size = p.size := by
  unfold Position.trail_by_atr
  by_cases hop : (!p.is_open) = true
  · simp [hop]
  · by_cases hs : p.side = "long" <;> simp [hop, hs]

theorem trail_by_atr_closed_eq (p : Position) (a m : ℚ) :
    (p.trail_by_atr a m).closed = p.closed := by
  unfold Position.trail_by_atr
  by_cases hop : (!p.is_open) = true
  · simp [hop]
  · by_cases hs : p.side = "long" <;> simp [hop, hs]

theorem trail_by_extremes_size_eq (p : Position) (off : ℚ) :
    (p.trail_by_extremes off).size = p.size := by
  unfold Position.trail_by_extremes
  by_cases hop : (!p.is_open) = true
  · simp [hop]
  · by_cases hs : p.side = "long" <;> simp [hop, hs]

theorem trail_by_extremes_closed_eq (p : Position) (off : ℚ) :
    (p.trail_by_extremes off).closed = p.closed := by
  unfold Position.trail_by_extremes
  by_cases hop : (!p.is_open) = true
  · simp [hop]
  · by_cases hs : p.side = "long" <;> simp [hop, hs]

theorem scale_in_size_nonneg (p : Position) (h : 0 ≤ p.size) (a b c : ℚ) :
    0 ≤ (p.scale_in a b c).size := by
  unfold Position.scale_in
  by_cases h1 : a ≤ 0
  · simpa [h1] using h
  · by_cases h2 : p.size + a ≤ 0
    · simpa [h1, h2] using h
    · simp only [h1, h2, if_false]
      exact le_of_lt (lt_of_not_le h2)

theorem scale_in_closed_eq (p : Position) (a b c : ℚ) :
    (p.scale_in a b c).closed = p.closed := by
  unfold Position.scale_in
  by_cases h1 : a ≤ 0
  · simp [h1]
  · by_cases h2 : p.size + a ≤ 0 <;> simp [h1, h2]

theorem reduce_fst_size_nonneg (p : Position) (h : 0 ≤ p.size)
    (s pr t f : ℚ) (r : String) : 0 ≤ (p.reduce s pr t f r).1.size := by
  unfold Position.reduce
  by_cases hg : (!p.is_open || decide (s ≤ 0)) = true
  · simpa [hg] using h
  · have hnn : 0 ≤ p.size - min s p.size :=
      sub_nonneg.mpr (min_le_right s p.size)
    by_cases hz : p.size - min s p.size ≤ 0 <;> simp [hg, hz, hnn]

theorem close_fst_size_nonneg (p : Position) (h : 0 ≤ p.size)
    (pr t f : ℚ) (r : String) : 0 ≤ (p.close pr t f r).1.size := by
  unfold Position.close
  by_cases hop : (!p.is_open) = true
  · simpa [hop] using h
  · simpa [hop] using reduce_fst_size_nonneg p h p.size pr t f r

theorem apply_fill_def (p : Position) (o : Order) (q pr f : ℚ)
    (t : Option ℚ) :
    p.apply_fill o q pr f t =
      if (p.side = "long" ∧ (o.fill q pr f none none).side = "buy") ∨
          (p.side = "short" ∧ (o.fill q pr f none none).side = "sell")
      then ({ p with orders := p.orders ++ [o.fill q pr f none none] } :
          Position).scale_in q pr f
      else (({ p with orders := p.orders ++ [o.fill q pr f none none] } :
          Position).reduce q pr (t.getD p.entry_time) f "order_reduce").1 :=
  rfl

theorem apply_fill_size_nonneg (p : Position) (h : 0 ≤ p.size) (o : Order)
    (q pr f : ℚ) (t : Option ℚ) : 0 ≤ (p.apply_fill o q pr f t).size := by
  rw [apply_fill_def]
  by_cases hadd : (p.side = "long" ∧
      (o.fill q pr f none none).side = "buy") ∨
      (p.side = "short" ∧ (o.fill q pr f none none).side = "sell")
  · rw [if_pos hadd]
    refine scale_in_size_nonneg _ ?_ q pr f
    exact h
  · rw [if_neg hadd]
    refine reduce_fst_size_nonneg _ ?_ q pr _ f _
    exact h

theorem applyOp_size_nonneg (p : Position) (h : 0 ≤ p.size) (op : Op) :
    0 ≤ (p.applyOp op).size := by
  cases op with
  | updateBar ts hi lo c => rw [Position.applyOp, update_bar_size_eq]; exact h
  | trailByAtr a m => rw [Position.applyOp, trail_by_atr_size_eq]; exact h
  | trailByExtremes off =>
      rw [Position.applyOp, trail_by_extremes_size_eq]; exact h
  | scaleIn a b c => exact scale_in_size_nonneg p h a b c
  | applyFill o q pr f t => exact apply_fill_size_nonneg p h o q pr f t
  | reduceOp s pr t f r => exact reduce_fst_size_nonneg p h s pr t f r
  | closeOp pr t f r => exact close_fst_size_nonneg p h pr t f r

theorem reduce_fst_closed_flip (p : Position) (_h : 0 ≤ p.size)
    (hcl : p.closed = false) (s pr t f : ℚ) (r : String)
    (hc2 : (p.reduce s pr t f r).1.closed = true) :
    (p.reduce s pr t f r).1.size = 0 := by
  unfold Position.reduce at hc2 ⊢
  by_cases hg : (!p.is_open || decide (s ≤ 0)) = true
  · rw [if_pos hg] at hc2
    exact absurd hc2 (by simp [hcl])
  · by_cases hz : p.size - min s p.size ≤ 0
    · have hnn : 0 ≤ p.size - min s p.size :=
        sub_nonneg.mpr (min_le_right s p.size)
      simp only [hg, hz, if_false, if_true]
      exact le_antisymm hz hnn
    · rw [if_neg (by simp [hg])] at hc2
      simp only [hz, if_false] at hc2
      exact absurd hc2 (by simp [hcl])

theorem close_fst_closed_flip (p : Position) (h : 0 ≤ p.size)
    (hcl : p.closed = false) (pr t f : ℚ) (r : String)
    (hc2 : (p.close pr t f r).1.closed = true) :
    (p.close pr t f r).1.size = 0 := by
  unfold Position.close at hc2 ⊢
  by_cases hop : (!p.is_open) = true
  · rw [if_pos hop] at hc2
    exact absurd hc2 (by simp [hcl])
  · rw [if_neg hop] at hc2 ⊢
    exact reduce_fst_closed_flip p h hcl p.size pr t f r hc2

theorem apply_fill_closed_flip (p : Position) (h : 0 ≤ p.size)
    (hcl : p.closed = false) (o : Order) (q pr f : ℚ) (t : Option ℚ)
    (hc2 : (p.apply_fill o q pr f t).closed = true) :
    (p.apply_fill o q pr f t).size = 0 := by
  rw [apply_fill_def] at hc2 ⊢
  by_cases hadd : (p.side = "long" ∧
      (o.fill q pr f none none).side = "buy") ∨
      (p.side = "short" ∧ (o.fill q pr f none none).side = "sell")
  · rw [if_pos hadd] at hc2
    rw [scale_in_closed_eq] at hc2
    exact absurd (show p.closed = true from hc2) (by simp [hcl])
  · rw [if_neg hadd] at hc2 ⊢
    refine reduce_fst_closed_flip _ ?_ ?_ q pr _ f _ hc2
    · exact h
    · exact hcl

theorem applyOp_closed_flip (p : Position) (h : 0 ≤ p.size) (op : Op)
    (h1 : p.closed = false) (h2 : (p.applyOp op).closed = true) :
    (p.applyOp op).size = 0 := by
  cases op with
  | updateBar ts hi lo c =>
      rw [Position.applyOp, update_bar_closed_eq] at h2
      exact absurd h2 (by simp [h1])
  | trailByAtr a m =>
      rw [Position.applyOp, trail_by_atr_closed_eq] at h2
      exact absurd h2 (by simp [h1])
  | trailByExtremes off =>
      rw [Position.applyOp, trail_by_extremes_closed_eq] at h2
      exact absurd h2 (by simp [h1])
  | scaleIn a b c =>
      rw [Position.applyOp, scale_in_closed_eq] at h2
      exact absurd h2 (by simp [h1])
  | applyFill o q pr f t => exact apply_fill_closed_flip p h h1 o q pr f t h2
  | reduceOp s pr t f r => exact reduce_fst_closed_flip p h h1 s pr t f r h2
  | closeOp pr t f r => exact close_fst_closed_flip p h h1 pr t f r h2

theorem applyOps_size_nonneg (ops : List Op) :
    ∀ p : Position, 0 ≤ p.size → 0 ≤ (p.applyOps ops).size := by
  induction ops with
  | nil => intro p h; simpa [Position.applyOps] using h
  | cons o os ih =>
      intro p h
      have hfold : p.applyOps (o :: os) = (p.applyOp o).applyOps os := rfl
      rw [hfold]
      exact ih _ (applyOp_size_nonneg p h o)

/-- C10: starting from any position with non-negative size, every sequence
of scale-in, fill, bar-update, trailing, reduce and close operations keeps
the size non-negative, and any operation that flips closed from false to
true leaves the size at exactly 0. -/
theorem c10_size_invariant (p : Position) (h : 0 ≤ p.size) :
    (∀ ops : List Op, 0 ≤ (p.applyOps ops).size) ∧
    (∀ (ops : List Op) (op : Op), (p.applyOps ops).closed = false →
      ((p.applyOps ops).applyOp op).closed = true →
      ((p.applyOps ops).applyOp op).size = 0) :=
  ⟨fun ops => applyOps_size_nonneg ops p h,
   fun ops op h1 h2 =>
     applyOp_closed_flip _ (applyOps_size_nonneg ops p h) op h1 h2⟩

/-- Witness for C10: a concrete scale-in, reduce and close sequence, and a
closing step that zeroes the size. -/
theorem c10_size_invariant_witness :
    0 ≤ pnlPosition.size ∧
    0 ≤ (pnlPosition.applyOps
        [Op.scaleIn 1 120 0, Op.reduceOp 3 110 1 0 "tp"]).size ∧
    ((pnlPosition.applyOps []).closed = false →
      ((pnlPosition.applyOps []).applyOp (Op.closeOp 110 1 0 "c")).closed = true →
      ((pnlPosition.applyOps []).applyOp (Op.closeOp 110 1 0 "c")).size = 0) := by
  have h : 0 ≤ pnlPosition.size := by norm_num [pnlPosition, Position.init]
  exact ⟨h,
    (c10_size_invariant pnlPosition h).1
      [Op.scaleIn 1 120 0, Op.reduceOp 3 110 1 0 "tp"],
    (c10_size_invariant pnlPosition h).2 [] (Op.closeOp 110 1 0 "c")⟩

theorem applyFills_avg_inv (fills : List Fill) :
    ∀ (o : Order) (s t : ℚ), 0 < t →
      o.avg_fill_price = some (s / t) → o.filled_quantity = t →
      (∀ f ∈ fills, 0 < f.quantity) →
      (o.applyFills fills).avg_fill_price =
        some ((s + fillsNotional fills) / (t + fillsQty fills)) ∧
      (o.applyFills fills).filled_quantity = t + fillsQty fills := by
  induction fills with
  | nil =>
      intro o s t _ havg hq _
      simp [Order.applyFills, fillsNotional, fillsQty, havg, hq]
  | cons f fs ih =>
      intro o s t ht havg hq hpos
      have hfq : 0 < f.quantity := hpos f (by simp)
      have hnle : ¬f.quantity ≤ 0 := not_le.mpr hfq
      have h1 : (o.fill f.quantity f.fill_price f.fee f.fill_time
          f.reason).avg_fill_price =
          some ((s + f.fill_price * f.quantity) / (t + f.quantity)) := by
        simp only [Order.fill, hnle, if_false, havg, hq]
        rw [div_mul_cancel₀ s (ne_of_gt ht)]
      have h2 : (o.fill f.quantity f.fill_price f.fee f.fill_time
          f.reason).filled_quantity = t + f.quantity := by
        simp [Order.fill, hnle, hq]
      have ht' : 0 < t + f.quantity := add_pos ht hfq
      have hrec := ih (o.fill f.quantity f.fill_price f.fee f.fill_time f.reason)
        (s + f.fill_price * f.quantity) (t + f.quantity) ht' h1 h2
        (fun g hg => hpos g (by simp [hg]))
      have hfold : o.applyFills (f :: fs) =
          (o.fill f.quantity f.fill_price f.fee f.fill_time
            f.reason).applyFills fs := rfl
      constructor
      · rw [hfold, hrec.1]
        simp only [fillsNotional, fillsQty, List.map_cons, List.sum_cons]
        congr 1
        ring
      · rw [hfold, hrec.2]
        simp only [fillsQty, List.map_cons, List.sum_cons]
        ring

theorem applyFills_fresh (o : Order) (havg : o.avg_fill_price = none)
    (hq : o.filled_quantity = 0) (f : Fill) (fs : List Fill)
    (hpos : ∀ g ∈ f :: fs, 0 < g.quantity) :
    (o.applyFills (f :: fs)).avg_fill_price =
      some (fillsNotional (f :: fs) / fillsQty (f :: fs)) := by
  have hfq : 0 < f.quantity := hpos f (by simp)
  have hnle : ¬f.quantity ≤ 0 := not_le.mpr hfq
  have h1 : (o.fill f.quantity f.fill_price f.fee f.fill_time
      f.reason).avg_fill_price =
      some ((f.fill_price * f.quantity) / f.quantity) := by
    simp only [Order.fill, hnle, if_false, havg]
    rw [mul_div_cancel_right₀ _ (ne_of_gt hfq)]
  have h2 : (o.fill f.quantity f.fill_price f.fee f.fill_time
      f.reason).filled_quantity = f.quantity := by
    simp [Order.fill, hnle, hq]
  have hrec := applyFills_avg_inv fs
    (o.fill f.quantity f.fill_price f.fee f.fill_time f.reason)
    (f.fill_price * f.quantity) f.quantity hfq h1 h2
    (fun g hg => hpos g (by simp [hg]))
  have hfold : o.applyFills (f :: fs) =
      (o.fill f.quantity f.fill_price f.fee f.fill_time
        f.reason).applyFills fs := rfl
  rw [hfold, hrec.1]
  simp only [fillsNotional, fillsQty, List.map_cons, List.sum_cons]

/-- C4: starting from a fresh order (no average, zero filled quantity),
after each fill of a sequence of fills with positive quantity the running
avg_fill_price equals the quantity-weighted mean of all fill prices so far,
i.e. the total notional divided by the total quantity of the prefix. -/
theorem c4_weighted_average_fill (o : Order)
    (havg : o.avg_fill_price = none) (hq : o.filled_quantity = 0)
    (fills : List Fill) (hpos : ∀ f ∈ fills, 0 < f.quantity)
    (k : ℕ) (hk : k < fills.length) :
    (o.applyFills (fills.take (k + 1))).avg_fill_price =
      some (fillsNotional (fills.take (k + 1)) / fillsQty (fills.take (k + 1))) := by
  cases fills with
  | nil => simp at hk
  | cons f fs =>
      rw [List.take_succ_cons]
      exact applyFills_fresh o havg hq f (fs.take k)
        (by
          intro g hg
          rcases List.mem_cons.mp hg with hgf | hgt
          · exact hpos g (by rw [hgf]; simp)
          · exact hpos g (List.mem_cons_of_mem f (List.take_subset k fs hgt)))

/-- A fresh order used as the C4 witness input. -/
def fillsOrder : Order := Order.init "buy" 4 100 0 "market"

/-- The concrete fills of the C4 witness. -/
def fillsList : List Fill :=
  [{ quantity := 2, fill_price := 100, fee := 0, fill_time := none, reason := none },
   { quantity := 2, fill_price := 110, fee := 0, fill_time := none, reason := none }]

/-- Witness for C4: two fills of 2 at 100 and 2 at 110. -/
theorem c4_weighted_average_fill_witness :
    fillsOrder.avg_fill_price = none ∧ fillsOrder.filled_quantity = 0 ∧
    (fillsOrder.applyFills (fillsList.take 2)).avg_fill_price =
      some (fillsNotional (fillsList.take 2) / fillsQty (fillsList.take 2)) := by
  refine ⟨rfl, rfl, c4_weighted_average_fill fillsOrder rfl rfl fillsList ?_ 1
    (by norm_num [fillsList])⟩
  intro f hf
  simp only [fillsList, List.mem_cons, List.not_mem_nil, or_false] at hf
  rcases hf with hf | hf <;> rw [hf] <;> norm_num

/-! Embedding of strategy/MACDdivergence.py.  The MACD series is a pandas
float series whose entries may be NaN: an entry is modelled as Option ℚ with
none for NaN.  Comparisons against NaN are false, arithmetic propagates NaN,
and the pandas max skips NaN (returning NaN only when nothing is left),
exactly as the library behaves on the operations the source uses. -/

/-- A Python float that may be NaN: none models NaN. -/
abbrev PFl := Option ℚ

/-- abs with NaN propagation. -/
def absF (x : PFl) : PFl := x.map (fun a => |a|)

/-- Subtraction with NaN propagation. -/
def subF : PFl → PFl → PFl
  | some a, some b => some (a - b)
  | _, _ => none

/-- Strict greater-than with the IEEE rule: any comparison with NaN is
false. -/
def gtF : PFl → PFl → Bool
  | some a, some b => decide (b < a)
  | _, _ => false

/-- Strict less-than with the IEEE rule: any comparison with NaN is false. -/
def ltF : PFl → PFl → Bool
  | some a, some b => decide (a < b)
  | _, _ => false

/-- pandas Series.max over possibly-NaN entries: NaN values are skipped and
the result is NaN only when no non-NaN value exists (also for the empty
series). -/
def nanMaxGo : PFl → List PFl → PFl
  | acc, [] => acc
  | acc, x :: xs =>
      nanMaxGo
        (match acc, x with
         | none, x => x
         | some a, none => some a
         | some a, some b => some (max a b)) xs

/-- pandas Series.max of a list of possibly-NaN values. -/
def nanMax (xs : List PFl) : PFl := nanMaxGo none xs

/-- pandas iloc read on an integer position: raises IndexError when out of
bounds. -/
def iloc {α : Type} (xs : List α) (i : ℕ) : Except String α :=
  match xs.get? i with
  | some v => Except.ok v
  | none => Except.error "IndexError"

/-- The value returned by MACDDivergence._line_between_points: either the
float nan (returned when x1 == x2, not callable) or the interpolating
lambda. -/
inductive PyLine where
  | nanFloat
  | callable (f : ℚ → PFl)

/-- Calling the value returned by _line_between_points: calling the nan
float raises a TypeError; the lambda evaluates the line (NaN when the slope
is NaN because y2 was NaN). -/
def pyCall : PyLine → ℚ → Except String PFl
  | PyLine.nanFloat, _ => Except.error "TypeError"
  | PyLine.callable f, x => Except.ok (f x)

/-- MACDDivergence._line_between_points: raises ValueError when y1 is NaN
(the source checks y1 twice, so a NaN y2 is not caught — the typo is kept),
returns the float nan when x1 == x2, else the interpolating lambda. -/
def line_between_points (x1 x2 : ℚ) (y1 y2 : PFl) : Except String PyLine :=
  if y1 = none ∨ y1 = none then Except.error "ValueError"
  else if x1 = x2 then Except.ok PyLine.nanFloat
  else Except.ok (PyLine.callable (fun x =>
    match y1, y2 with
    | some a, some b =>
        let m := (b - a) / (x2 - x1)
        some (m * x + (a - m * x1))
    | _, _ => none))

/-- The intermediate-index loop of MACDDivergence._validat_macd_line:
for i in range(m1+1, m2): reject when line(i) is NaN, reject when
abs(macd[i]) - abs(line(i)) > tolerance_val, else continue. -/
def validLoop (macd : List PFl) (line : PyLine) (tol : PFl) (i m2 : ℕ) :
    Except String Bool :=
  if _h : i < m2 then
    match pyCall line (i : ℚ) with
    | Except.error e => Except.error e
    | Except.ok v =>
        if v = none then Except.ok false
        else
          match iloc macd i with
          | Except.error e => Except.error e
          | Except.ok mi =>
              if gtF (subF (absF mi) (absF v)) tol then Except.ok false
              else validLoop macd line tol (i + 1) m2
  else Except.ok true
termination_by m2 - i
decreasing_by omega

/-- MACDDivergence._validat_macd_line: build the straight line between
(m1, MACD[m1]) and (m2, MACD[m2]) and check every intermediate index
against the tolerance envelope
tolerance * max(abs(MACD) over the slice [m1, m2)). -/
def validat_macd_line (macd : List PFl) (tolerance : ℚ) (m1 m2 : ℕ) :
    Except String Bool :=
  let tolerance_val : PFl :=
    (nanMax (((macd.drop m1).take (m2 - m1)).map absF)).map
      (fun mx => tolerance * mx)
  match iloc macd m1 with
  | Except.error e => Except.error e
  | Except.ok y1 =>
      match iloc macd m2 with
      | Except.error e => Except.error e
      | Except.ok y2 =>
          match line_between_points (m1 : ℚ) (m2 : ℚ) y1 y2 with
          | Except.error e => Except.error e
          | Except.ok line => validLoop macd line tolerance_val (m1 + 1) m2

/-- The MACD value at index i, as a plain rational (meaningful when the
series has no NaN at i; 0 as fallback). -/
def macdVal (macd : List PFl) (i : ℕ) : ℚ := (macd.getD i none).getD 0

/-- The straight line through (m1, MACD[m1]) and (m2, MACD[m2]), written
from the words of the specification. -/
def lineVal (macd : List PFl) (m1 m2 : ℕ) (x : ℚ) : ℚ :=
  let a := macdVal macd m1
  let b := macdVal macd m2
  let m := (b - a) / ((m2 : ℚ) - (m1 : ℚ))
  m * x + (a - m * (m1 : ℚ))

/-- The tolerance envelope: tolerance_factor times the max of abs MACD over
the slice [m1, m2), written from the words of the specification. -/
def tolVal (macd : List PFl) (tolerance : ℚ) (m1 m2 : ℕ) : ℚ :=
  tolerance * ((nanMax (((macd.drop m1).take (m2 - m1)).map absF)).getD 0)

theorem nanMaxGo_some (xs : List PFl) :
    ∀ a : ℚ, ∃ v, nanMaxGo (some a) xs = some v := by
  induction xs with
  | nil => intro a; exact ⟨a, rfl⟩
  | cons x xs ih =>
      intro a
      cases x with
      | none => simpa [nanMaxGo] using ih a
      | some b => simpa [nanMaxGo] using ih (max a b)

theorem nanMax_some (xs : List PFl) (hne : xs ≠ [])
    (hall : ∀ x ∈ xs, x ≠ none) : ∃ v, nanMax xs = some v := by
  cases xs with
  | nil => exact absurd rfl hne
  | cons x xs =>
      cases x with
      | none => exact absurd rfl (hall none (by simp))
      | some a => simpa [nanMax, nanMaxGo] using nanMaxGo_some xs a

theorem macdVal_get (macd : List PFl) (hall : ∀ x ∈ macd, x ≠ none) (i : ℕ)
    (hi : i < macd.length) :
    macd.get? i = some (some (macdVal macd i)) := by
  obtain ⟨x, hx⟩ : ∃ x, macd.get? i = some x := ⟨_, List.get?_eq_get hi⟩
  have hmem : x ∈ macd := List.get?_mem hx
  obtain ⟨a, ha⟩ := Option.ne_none_iff_exists.mp (hall x hmem)
  have hval : macdVal macd i = a := by
    unfold macdVal
    rw [List.getD_eq_getElem?_getD, ← List.get?_eq_getElem?, hx, ← ha]
    rfl
  rw [hx, ← ha, hval]

theorem validLoop_ok (macd : List PFl) (g : ℚ → PFl)
    (hg : ∀ x, g x ≠ none) (tol : PFl) (m2 : ℕ) (hm2 : m2 ≤ macd.length)
    (hall : ∀ x ∈ macd, x ≠ none) :
    ∀ (n i : ℕ), m2 - i ≤ n →
      ∃ b, validLoop macd (PyLine.callable g) tol i m2 = Except.ok b := by
  intro n
  induction n with
  | zero =>
      intro i hi
      have hc : ¬i < m2 := by omega
      unfold validLoop
      simp only [hc, dite_false]
      exact ⟨true, rfl⟩
  | succ n ih =>
      intro i hi
      by_cases hc : i < m2
      · have hilt : i < macd.length := lt_of_lt_of_le hc hm2
        have hget := macdVal_get macd hall i hilt
        unfold validLoop
        simp only [hc, dite_true, pyCall, hg i, if_false, iloc, hget]
        by_cases hgt :
            gtF (subF (absF (some (macdVal macd i))) (absF (g (i : ℚ)))) tol = true
        · exact ⟨false, by simp [hgt]⟩
        · obtain ⟨b, hb⟩ := ih (i + 1) (by omega)
          refine ⟨b, ?_⟩
          simp only [Bool.not_eq_true] at hgt
          simp [hgt, hb]
      · unfold validLoop
        simp only [hc, dite_false]
        exact ⟨true, rfl⟩

theorem validLoop_iff (macd : List PFl) (hall : ∀ x ∈ macd, x ≠ none)
    (g : ℚ → PFl) (f : ℚ → ℚ) (hg : ∀ x, g x = some (f x)) (T : ℚ) (m2 : ℕ)
    (hm2 : m2 ≤ macd.length) :
    ∀ (n i : ℕ), m2 - i ≤ n →
      (validLoop macd (PyLine.callable g) (some T) i m2 = Except.ok true ↔
        ∀ j : ℕ, i ≤ j → j < m2 → |macdVal macd j| - |f (j : ℚ)| ≤ T) := by
  intro n
  induction n with
  | zero =>
      intro i hi
      have hc : ¬i < m2 := by omega
      unfold validLoop
      simp only [hc, dite_false]
      exact iff_of_true trivial (fun j hj1 hj2 => absurd (lt_of_le_of_lt hj1 hj2) hc)
  | succ n ih =>
      intro i hi
      by_cases hc : i < m2
      · have hilt : i < macd.length := lt_of_lt_of_le hc hm2
        have hget := macdVal_get macd hall i hilt
        unfold validLoop
        simp only [hc, dite_true, pyCall, hg i, iloc, hget]
        have hnone : (some (f (i : ℚ)) : PFl) ≠ none := by simp
        simp only [hnone, if_false]
        have hgtF : gtF (subF (absF (some (macdVal macd i)))
            (absF (some (f (i : ℚ))))) (some T) =
            decide (T < |macdVal macd i| - |f (i : ℚ)|) := by
          simp [gtF, subF, absF]
        rw [hgtF]
        by_cases hd : T < |macdVal macd i| - |f (i : ℚ)|
        · simp only [hd, decide_True, if_true]
          refine iff_of_false (by simp) (fun hR => ?_)
          exact absurd (hR i le_rfl hc) (not_le.mpr hd)
        · simp only [hd, decide_False, Bool.false_eq_true, if_false]
          rw [ih (i + 1) (by omega)]
          constructor
          · intro hR j hj1 hj2
            rcases lt_or_eq_of_le hj1 with hlt | hij
            · exact hR j (by omega) hj2
            · rw [← hij]; exact not_lt.mp hd
          · intro hR j hj1 hj2
            exact hR j (by omega) hj2
      · unfold validLoop
        simp only [hc, dite_false]
        exact iff_of_true trivial (fun j hj1 hj2 => absurd (lt_of_le_of_lt hj1 hj2) hc)

theorem validat_ok (macd : List PFl) (tolerance : ℚ) (m1 m2 : ℕ)
    (hm1 : m1 < macd.length) (hm2 : m2 < macd.length)
    (hall : ∀ x ∈ macd, x ≠ none) :
    ∃ b, validat_macd_line macd tolerance m1 m2 = Except.ok b := by
  have hy1 := macdVal_get macd hall m1 hm1
  have hy2 := macdVal_get macd hall m2 hm2
  unfold validat_macd_line
  simp only [iloc, hy1, hy2]
  by_cases heq : m1 = m2
  · have hcast : ((m1 : ℕ) : ℚ) = ((m2 : ℕ) : ℚ) := by rw [heq]
    simp only [line_between_points, hcast, if_true]
    have hfin : ¬m1 + 1 < m2 := by omega
    have hstop : ∀ tol, validLoop macd PyLine.nanFloat tol (m1 + 1) m2 =
        Except.ok true := by
      intro tol
      unfold validLoop
      simp [hfin]
    simp [hstop]
  · have hcast : ¬((m1 : ℕ) : ℚ) = ((m2 : ℕ) : ℚ) := by
      exact_mod_cast heq
    simp only [line_between_points, hcast, if_false]
    have hg : ∀ x : ℚ,
        (fun x =>
          match (some (macdVal macd m1) : PFl), (some (macdVal macd m2) : PFl) with
          | some a, some b =>
              let m := (b - a) / (((m2 : ℕ) : ℚ) - ((m1 : ℕ) : ℚ))
              some (m * x + (a - m * ((m1 : ℕ) : ℚ)))
          | _, _ => none) x ≠ none := by
      intro x; simp
    have := validLoop_ok macd _ hg
      ((nanMax (((macd.drop m1).take (m2 - m1)).map absF)).map
        (fun mx => tolerance * mx)) m2 (le_of_lt hm2) hall
      (m2 - (m1 + 1)) (m1 + 1) le_rfl
    simpa using this

/-- C8 counterexample: the claim requires vertical-line inputs to be
rejected and NaN endpoints to yield rejection (returning false rather than
failing); the code accepts the vertical pair m1 = m2 (the intermediate-index
loop is empty, so it returns True), and a NaN first endpoint makes
_line_between_points raise ValueError instead of returning False. -/
theorem c8_validat_counterexample :
    validat_macd_line [some 1] 1 0 0 = Except.ok true ∧
    validat_macd_line [none, some 1, some 1] 1 0 2 =
      Except.error "ValueError" := by
  constructor
  · unfold validat_macd_line
    have hstop : ∀ tol, validLoop [some 1] PyLine.nanFloat tol 1 0 =
        Except.ok true := by
      intro tol
      unfold validLoop
      simp
    simp [iloc, line_between_points, hstop]
  · unfold validat_macd_line
    simp [iloc, line_between_points]

/-- C8 (amended): for an in-bounds pair with m1 < m2 over a NaN-free MACD
series, _validat_macd_line accepts iff for every intermediate index i
strictly between m1 and m2 the deviation abs(MACD[i]) - abs(line(i)) does
not exceed tolerance_factor * max(abs(MACD) over [m1, m2)); degenerate
pairs without intermediate indices — in particular the vertical pair
m1 = m2 — are accepted vacuously, and a NaN first endpoint raises an error
instead of returning false. -/
theorem c8_validat_amended (macd : List PFl) (tolerance : ℚ) (m1 m2 : ℕ)
    (hm2 : m2 < macd.length) (h12 : m1 < m2)
    (hall : ∀ x ∈ macd, x ≠ none) :
    validat_macd_line macd tolerance m1 m2 = Except.ok true ↔
      ∀ i : ℕ, m1 < i → i < m2 →
        |macdVal macd i| - |lineVal macd m1 m2 (i : ℚ)| ≤
          tolVal macd tolerance m1 m2 := by
  have hm1 : m1 < macd.length := lt_trans h12 hm2
  have hy1 := macdVal_get macd hall m1 hm1
  have hy2 := macdVal_get macd hall m2 hm2
  have hslice_all : ∀ x ∈ ((macd.drop m1).take (m2 - m1)).map absF,
      x ≠ none := by
    intro x hx
    obtain ⟨y, hy, hxy⟩ := List.mem_map.mp hx
    have hy' : y ∈ macd :=
      List.drop_subset m1 macd (List.take_subset (m2 - m1) (macd.drop m1) hy)
    obtain ⟨a, ha⟩ := Option.ne_none_iff_exists.mp (hall y hy')
    rw [← hxy, ← ha]
    simp [absF]
  have hslice_ne : ((macd.drop m1).take (m2 - m1)).map absF ≠ [] := by
    apply List.ne_nil_of_length_pos
    simp only [List.length_map, List.length_take, List.length_drop]
    omega
  obtain ⟨mx, hmx⟩ := nanMax_some _ hslice_ne hslice_all
  have htol : tolVal macd tolerance m1 m2 = tolerance * mx := by
    unfold tolVal
    rw [hmx]
    rfl
  have hcast : ¬((m1 : ℕ) : ℚ) = ((m2 : ℕ) : ℚ) := by
    exact_mod_cast ne_of_lt h12
  unfold validat_macd_line
  simp only [iloc, hy1, hy2, line_between_points, hcast, if_false, hmx]
  have hiff := validLoop_iff macd hall
    (fun x =>
      match (some (macdVal macd m1) : PFl), (some (macdVal macd m2) : PFl) with
      | some a, some b =>
          let m := (b - a) / (((m2 : ℕ) : ℚ) - ((m1 : ℕ) : ℚ))
          some (m * x + (a - m * ((m1 : ℕ) : ℚ)))
      | _, _ => none)
    (fun x => lineVal macd m1 m2 x) (fun x => rfl) (tolerance * mx) m2
    (le_of_lt hm2) (m2 - (m1 + 1)) (m1 + 1) le_rfl
  rw [htol]
  constructor
  · intro hloop i hi1 hi2
    have := (hiff.mp (by simpa using hloop)) i (by omega) hi2
    simpa using this
  · intro hR
    have := hiff.mpr (fun j hj1 hj2 => hR j (by omega) hj2)
    simpa using this

/-- Witness for C8 (amended) at a concrete NaN-free series. -/
theorem c8_validat_amended_witness :
    validat_macd_line [some 0, some 1, some 2] 1 0 2 = Except.ok true ↔
      ∀ i : ℕ, 0 < i → i < 2 →
        |macdVal [some 0, some 1, some 2] i| -
            |lineVal [some 0, some 1, some 2] 0 2 (i : ℚ)| ≤
          tolVal [some 0, some 1, some 2] 1 0 2 := by
  refine c8_validat_amended [some 0, some 1, some 2] 1 0 2 (by norm_num)
    (by norm_num) ?_
  intro x hx
  simp only [List.mem_cons, List.not_mem_nil, or_false] at hx
  rcases hx with hx | hx | hx <;> rw [hx] <;> simp

/-- One OHLC bar as consumed by the divergence detector (only the high and
low columns are read; prices are assumed non-NaN as ordinary OHLC data). -/
structure Bar where
  high : ℚ
  low : ℚ
deriving Repr, DecidableEq

/-- The mutable state of MACDDivergence._divergence_detector: the signal
series plus the per-call divergence index lists (the line layers built from
those lists are rendering only and are not modelled). -/
structure DetState where
  signals : List (Option String)
  price_rd : List (ℕ × ℕ)
  macd_rd : List (ℕ × ℕ)
  price_hd : List (ℕ × ℕ)
  macd_hd : List (ℕ × ℕ)
deriving Repr, DecidableEq

/-- The configuration of one _divergence_detector call: the data and MACD
series and the self fields it reads, plus the call arguments. dtype models
the argument named type. -/
structure DetCfg where
  data : List Bar
  macd : List PFl
  tolerance : ℚ
  interspace : ℕ
  side : String
  tresh : ℤ
  price_diff : ℚ
  macd_diff : ℚ
  dtype : String
deriving Repr, DecidableEq

/-- pandas iloc assignment signals.iloc[i] = v: raises IndexError when out
of bounds. -/
def ilocSet (s : List (Option String)) (i : ℕ) (v : String) :
    Except String (List (Option String)) :=
  if i < s.length then Except.ok (s.set i (some v)) else Except.error "IndexError"

/-- The guarded signal write of the detector:
if p2 + interspace < len(signals): signals.iloc[p2 + interspace] = v. -/
def writeSignal (st : DetState) (idx : ℕ) (v : String) :
    Except String DetState :=
  if idx < st.signals.length then
    match ilocSet st.signals idx v with
    | Except.error e => Except.error e
    | Except.ok s => Except.ok { st with signals := s }
  else Except.ok st

/-- Append a regular-divergence pair to the rd lists. -/
def recordRd (st : DetState) (p1 p2 m1 m2 : ℕ) : DetState :=
  { st with
    price_rd := st.price_rd ++ [(p1, p2)]
    , macd_rd := st.macd_rd ++ [(m1, m2)] }

/-- Append a hidden-divergence pair to the hd lists. -/
def recordHd (st : DetState) (p1 p2 m1 m2 : ℕ) : DetState :=
  { st with
    price_hd := st.price_hd ++ [(p1, p2)]
    , macd_hd := st.macd_hd ++ [(m1, m2)] }

/-- The body of the inner divergence loop for one candidate pair
(p1, m1), (p2, m2), after the time-gap break check: read the two prices and
two MACD values, then test case A (price up, MACD down) and case B (price
down, MACD up) in sequence, validating the MACD line and writing the signal
at p2 + interspace when in bounds. -/
def pairStep (cfg : DetCfg) (p1 m1 p2 m2 : ℕ) (st : DetState) :
    Except String DetState :=
  match iloc cfg.data p1 with
  | Except.error e => Except.error e
  | Except.ok bar1 =>
  match iloc cfg.data p2 with
  | Except.error e => Except.error e
  | Except.ok bar2 =>
  match iloc cfg.macd m1 with
  | Except.error e => Except.error e
  | Except.ok macd1 =>
  match iloc cfg.macd m2 with
  | Except.error e => Except.error e
  | Except.ok macd2 =>
    let price1 := if cfg.side = "sell" then bar1.high else bar1.low
    let price2 := if cfg.side = "sell" then bar2.high else bar2.low
    let caseA : Except String DetState :=
      if cfg.price_diff < price2 - price1 ∧
          ltF (subF macd2 macd1) (some (-cfg.macd_diff)) = true then
        if cfg.side = "sell" then
          match validat_macd_line cfg.macd cfg.tolerance m1 m2 with
          | Except.error e => Except.error e
          | Except.ok true =>
              let st' := recordRd st p1 p2 m1 m2
              if cfg.dtype ≠ "hd" then
                writeSignal st' (p2 + cfg.interspace) "sell"
              else Except.ok st'
          | Except.ok false => Except.ok st
        else
          match validat_macd_line cfg.macd cfg.tolerance m1 m2 with
          | Except.error e => Except.error e
          | Except.ok true =>
              let st' := recordHd st p1 p2 m1 m2
              if cfg.dtype ≠ "rd" then
                writeSignal st' (p2 + cfg.interspace) "buy"
              else Except.ok st'
          | Except.ok false => Except.ok st
      else Except.ok st
    match caseA with
    | Except.error e => Except.error e
    | Except.ok st =>
        if price2 - price1 < -cfg.price_diff ∧
            gtF (subF macd2 macd1) (some cfg.macd_diff) = true then
          if cfg.side = "buy" then
            match validat_macd_line cfg.macd cfg.tolerance m1 m2 with
            | Except.error e => Except.error e
            | Except.ok true =>
                let st' := recordRd st p1 p2 m1 m2
                if cfg.dtype ≠ "hd" then
                  writeSignal st' (p2 + cfg.interspace) "buy"
                else Except.ok st'
            | Except.ok false => Except.ok st
          else
            match validat_macd_line cfg.macd cfg.tolerance m1 m2 with
            | Except.error e => Except.error e
            | Except.ok true =>
                let st' := recordHd st p1 p2 m1 m2
                if cfg.dtype ≠ "rd" then
                  writeSignal st' (p2 + cfg.interspace) "sell"
                else Except.ok st'
            | Except.ok false => Except.ok st
        else Except.ok st

/-- The inner loop over later pairs (p2, m2), with the early break when
p2 - p1 > tresh. -/
def innerLoop (cfg : DetCfg) (p1 m1 : ℕ) :
    List (ℕ × ℕ) → DetState → Except String DetState
  | [], st => Except.ok st
  | pm :: rest, st =>
      if cfg.tresh < (pm.1 : ℤ) - (p1 : ℤ) then Except.ok st
      else
        match pairStep cfg p1 m1 pm.1 pm.2 st with
        | Except.error e => Except.error e
        | Except.ok st' => innerLoop cfg p1 m1 rest st'

/-- The outer loop over the first pair (p1, m1). -/
def outerLoop (cfg : DetCfg) :
    List (ℕ × ℕ) → DetState → Except String DetState
  | [], st => Except.ok st
  | pm :: rest, st =>
      match innerLoop cfg pm.1 pm.2 rest st with
      | Except.error e => Except.error e
      | Except.ok st' => outerLoop cfg rest st'

/-- MACDDivergence._divergence_detector, returning the updated signal
series (the per-call rd/hd lists feed only the chart layers). -/
def divergence_detector (cfg : DetCfg) (nearest_peaks : List (ℕ × ℕ))
    (signals : List (Option String)) : Except String (List (Option String)) :=
  match outerLoop cfg nearest_peaks
      { signals := signals, price_rd := [], macd_rd := []
      , price_hd := [], macd_hd := [] } with
  | Except.error e => Except.error e
  | Except.ok st => Except.ok st.signals

/-- Python dict assignment mapping[k] = v on an association list that keeps
insertion order. -/
def assocSet (l : List (ℕ × ℕ)) (k v : ℕ) : List (ℕ × ℕ) :=
  if l.any (fun kv => kv.1 == k) then
    l.map (fun kv => if kv.1 == k then (k, v) else kv)
  else l ++ [(k, v)]

/-- min(candidates, key=distance to p): the first candidate of minimal
distance, none when the candidate list is empty. -/
def closestExtremum (p : ℕ) (macd_extrema : List ℕ) (max_distance : ℕ) :
    Option ℕ :=
  let candidates : List ℕ := macd_extrema.filter
    (fun m => decide (((m : ℤ) - (p : ℤ)).natAbs ≤ max_distance))
  match candidates with
  | [] => none
  | c :: cs =>
      some (cs.foldl
        (fun (best mm : ℕ) =>
          if ((mm : ℤ) - (p : ℤ)).natAbs < ((best : ℤ) - (p : ℤ)).natAbs then mm
          else best) c)

/-- MACDDivergence._map_extrema: map each price extremum to the nearest MACD
extremum within max_distance bars, keeping dict insertion order. -/
def map_extrema (price_extrema macd_extrema : List ℕ) (max_distance : ℕ) :
    List (ℕ × ℕ) :=
  price_extrema.foldl
    (fun acc p =>
      match closestExtremum p macd_extrema max_distance with
      | none => acc
      | some m => assocSet acc p m) []

/-- The sign split of the detected MACD peaks in generate_signals: indices
with MACD < 0 go to the low side, indices with MACD > 0 to the high side
(NaN goes nowhere); each index is read with iloc. -/
def splitPeaks (macd : List PFl) : List ℕ → Except String (List ℕ × List ℕ)
  | [] => Except.ok ([], [])
  | idx :: rest =>
      match iloc macd idx with
      | Except.error e => Except.error e
      | Except.ok v =>
          match splitPeaks macd rest with
          | Except.error e => Except.error e
          | Except.ok lowsHighs =>
              Except.ok
                ((if ltF v (some 0) then idx :: lowsHighs.1 else lowsHighs.1),
                 (if gtF v (some 0) then idx :: lowsHighs.2 else lowsHighs.2))

/-- MACDDivergence.generate_signals over an already-computed peak detection
(find_peaks is an external primitive per the specification, so the three
peak index lists are inputs): initialize the signal series aligned to the
data index (Strategy.__init__), split the MACD peaks by sign, map price
extrema to the nearest MACD extrema, and run the divergence detector per
configured side over the shared signal series. -/
def generate_signals (data : List Bar) (macd : List PFl)
    (high_peaks low_peaks macd_peaks : List ℕ) (interspace : ℕ)
    (treshhold : ℤ) (price_deep macd_deep tolerance : ℚ)
    (dtype side : String) : Except String (List (Option String)) :=
  let signals : List (Option String) := List.replicate data.length none
  match splitPeaks macd macd_peaks with
  | Except.error e => Except.error e
  | Except.ok lowsHighs =>
      let nearest_high := map_extrema high_peaks lowsHighs.2 6
      let nearest_low := map_extrema low_peaks lowsHighs.1 6
      let cfgBuy : DetCfg :=
        { data := data, macd := macd, tolerance := tolerance
        , interspace := interspace, side := "buy", tresh := treshhold
        , price_diff := price_deep, macd_diff := macd_deep, dtype := dtype }
      let cfgSell : DetCfg := { cfgBuy with side := "sell" }
      if side = "" then
        match divergence_detector cfgBuy nearest_low signals with
        | Except.error e => Except.error e
        | Except.ok s1 => divergence_detector cfgSell nearest_high s1
      else if side = "buy" then divergence_detector cfgBuy nearest_low signals
      else if side = "sell" then
        divergence_detector cfgSell nearest_high signals
      else Except.ok signals

theorem writeSignal_ok (st : DetState) (idx : ℕ) (v : String) :
    ∃ st', writeSignal st idx v = Except.ok st' ∧
      st'.signals.length = st.signals.length := by
  unfold writeSignal ilocSet
  by_cases h : idx < st.signals.length
  · simp only [h, if_true]
    exact ⟨_, rfl, by simp⟩
  · simp only [h, if_false]
    exact ⟨st, rfl, rfl⟩

theorem writeBranch_ok (st st0 : DetState) (hsig : st0.signals = st.signals)
    (w : Prop) [Decidable w] (idx : ℕ) (v : String) :
    ∃ st', (if w then writeSignal st0 idx v else Except.ok st0) =
      Except.ok st' ∧ st'.signals.length = st.signals.length := by
  by_cases hw : w
  · rw [if_pos hw]
    obtain ⟨st', h1, h2⟩ := writeSignal_ok st0 idx v
    exact ⟨st', h1, by rw [h2, hsig]⟩
  · rw [if_neg hw]
    exact ⟨st0, rfl, by rw [hsig]⟩

theorem pairStep_ok (cfg : DetCfg) (p1 m1 p2 m2 : ℕ)
    (hp1 : p1 < cfg.data.length) (hp2 : p2 < cfg.data.length)
    (hm1 : m1 < cfg.macd.length) (hm2 : m2 < cfg.macd.length)
    (hall : ∀ x ∈ cfg.macd, x ≠ none) (st : DetState) :
    ∃ st', pairStep cfg p1 m1 p2 m2 st = Except.ok st' ∧
      st'.signals.length = st.signals.length := by
  have hb1 : iloc cfg.data p1 = Except.ok (cfg.data.get ⟨p1, hp1⟩) := by
    simp [iloc, List.getElem?_eq_getElem hp1]
  have hb2 : iloc cfg.data p2 = Except.ok (cfg.data.get ⟨p2, hp2⟩) := by
    simp [iloc, List.getElem?_eq_getElem hp2]
  have hg1 : iloc cfg.macd m1 = Except.ok (cfg.macd.get ⟨m1, hm1⟩) := by
    simp [iloc, List.getElem?_eq_getElem hm1]
  have hg2 : iloc cfg.macd m2 = Except.ok (cfg.macd.get ⟨m2, hm2⟩) := by
    simp [iloc, List.getElem?_eq_getElem hm2]
  obtain ⟨bv, hbv⟩ := validat_ok cfg.macd cfg.tolerance m1 m2 hm1 hm2 hall
  unfold pairStep
  rw [hb1, hb2, hg1, hg2]
  dsimp only
  have hA : ∃ stA,
      (if cfg.price_diff <
            (if cfg.side = "sell" then (cfg.data.get ⟨p2, hp2⟩).high
              else (cfg.data.get ⟨p2, hp2⟩).low) -
            (if cfg.side = "sell" then (cfg.data.get ⟨p1, hp1⟩).high
              else (cfg.data.get ⟨p1, hp1⟩).low) ∧
          ltF (subF (cfg.macd.get ⟨m2, hm2⟩) (cfg.macd.get ⟨m1, hm1⟩))
            (some (-cfg.macd_diff)) = true then
        if cfg.side = "sell" then
          match validat_macd_line cfg.macd cfg.tolerance m1 m2 with
          | Except.error e => Except.error e
          | Except.ok true =>
              if cfg.dtype ≠ "hd" then
                writeSignal (recordRd st p1 p2 m1 m2) (p2 + cfg.interspace)
                  "sell"
              else Except.ok (recordRd st p1 p2 m1 m2)
          | Except.ok false => Except.ok st
        else
          match validat_macd_line cfg.macd cfg.tolerance m1 m2 with
          | Except.error e => Except.error e
          | Except.ok true =>
              if cfg.dtype ≠ "rd" then
                writeSignal (recordHd st p1 p2 m1 m2) (p2 + cfg.interspace)
                  "buy"
              else Except.ok (recordHd st p1 p2 m1 m2)
          | Except.ok false => Except.ok st
      else Except.ok st) = Except.ok stA ∧
      stA.signals.length = st.signals.length := by
    by_cases hcond : cfg.price_diff <
        (if cfg.side = "sell" then (cfg.data.get ⟨p2, hp2⟩).high
          else (cfg.data.get ⟨p2, hp2⟩).low) -
        (if cfg.side = "sell" then (cfg.data.get ⟨p1, hp1⟩).high
          else (cfg.data.get ⟨p1, hp1⟩).low) ∧
        ltF (subF (cfg.macd.get ⟨m2, hm2⟩) (cfg.macd.get ⟨m1, hm1⟩))
          (some (-cfg.macd_diff)) = true
    · rw [if_pos hcond, hbv]
      by_cases hside : cfg.side = "sell"
      · rw [if_pos hside]
        cases bv with
        | false => exact ⟨st, rfl, rfl⟩
        | true => exact writeBranch_ok st (recordRd st p1 p2 m1 m2) rfl _ _ _
      · rw [if_neg hside]
        cases bv with
        | false => exact ⟨st, rfl, rfl⟩
        | true => exact writeBranch_ok st (recordHd st p1 p2 m1 m2) rfl _ _ _
    · rw [if_neg hcond]
      exact ⟨st, rfl, rfl⟩
  obtain ⟨stA, hA1, hA2⟩ := hA
  rw [hA1]
  dsimp only
  by_cases hcond2 :
      (if cfg.side = "sell" then (cfg.data.get ⟨p2, hp2⟩).high
        else (cfg.data.get ⟨p2, hp2⟩).low) -
      (if cfg.side = "sell" then (cfg.data.get ⟨p1, hp1⟩).high
        else (cfg.data.get ⟨p1, hp1⟩).low) < -cfg.price_diff ∧
      gtF (subF (cfg.macd.get ⟨m2, hm2⟩) (cfg.macd.get ⟨m1, hm1⟩))
        (some cfg.macd_diff) = true
  · rw [if_pos hcond2, hbv]
    by_cases hside : cfg.side = "buy"
    · rw [if_pos hside]
      cases bv with
      | false => exact ⟨stA, rfl, hA2⟩
      | true =>
          obtain ⟨st', h1, h2⟩ :=
            writeBranch_ok stA (recordRd stA p1 p2 m1 m2) rfl
              (cfg.dtype ≠ "hd") (p2 + cfg.interspace) "buy"
          exact ⟨st', h1, by rw [h2, hA2]⟩
    · rw [if_neg hside]
      cases bv with
      | false => exact ⟨stA, rfl, hA2⟩
      | true =>
          obtain ⟨st', h1, h2⟩ :=
            writeBranch_ok stA (recordHd stA p1 p2 m1 m2) rfl
              (cfg.dtype ≠ "rd") (p2 + cfg.interspace) "sell"
          exact ⟨st', h1, by rw [h2, hA2]⟩
  · rw [if_neg hcond2]
    exact ⟨stA, rfl, hA2⟩

theorem innerLoop_ok (cfg : DetCfg) (hall : ∀ x ∈ cfg.macd, x ≠ none)
    (p1 m1 : ℕ) (hp1 : p1 < cfg.data.length) (hm1 : m1 < cfg.macd.length)
    (rest : List (ℕ × ℕ)) :
    ∀ st : DetState,
      (∀ pm ∈ rest, pm.1 < cfg.data.length ∧ pm.2 < cfg.macd.length) →
      ∃ st', innerLoop cfg p1 m1 rest st = Except.ok st' ∧
        st'.signals.length = st.signals.length := by
  induction rest with
  | nil => intro st _; exact ⟨st, rfl, rfl⟩
  | cons pm rest ih =>
      intro st hmem
      unfold innerLoop
      by_cases hbr : cfg.tresh < (pm.1 : ℤ) - (p1 : ℤ)
      · rw [if_pos hbr]
        exact ⟨st, rfl, rfl⟩
      · rw [if_neg hbr]
        obtain ⟨stA, h1, h2⟩ :=
          pairStep_ok cfg p1 m1 pm.1 pm.2 hp1 (hmem pm (by simp)).1 hm1
            (hmem pm (by simp)).2 hall st
        rw [h1]
        obtain ⟨st', h3, h4⟩ := ih stA (fun q hq => hmem q (by simp [hq]))
        exact ⟨st', h3, by rw [h4, h2]⟩

theorem outerLoop_ok (cfg : DetCfg) (hall : ∀ x ∈ cfg.macd, x ≠ none)
    (pairs : List (ℕ × ℕ)) :
    ∀ st : DetState,
      (∀ pm ∈ pairs, pm.1 < cfg.data.length ∧ pm.2 < cfg.macd.length) →
      ∃ st', outerLoop cfg pairs st = Except.ok st' ∧
        st'.signals.length = st.signals.length := by
  induction pairs with
  | nil => intro st _; exact ⟨st, rfl, rfl⟩
  | cons pm rest ih =>
      intro st hmem
      unfold outerLoop
      obtain ⟨stA, h1, h2⟩ :=
        innerLoop_ok cfg hall pm.1 pm.2 (hmem pm (by simp)).1
          (hmem pm (by simp)).2 rest st (fun q hq => hmem q (by simp [hq]))
      rw [h1]
      obtain ⟨st', h3, h4⟩ := ih stA (fun q hq => hmem q (by simp [hq]))
      exact ⟨st', h3, by rw [h4, h2]⟩

theorem divergence_detector_ok (cfg : DetCfg)
    (hall : ∀ x ∈ cfg.macd, x ≠ none) (pairs : List (ℕ × ℕ))
    (hb : ∀ pm ∈ pairs, pm.1 < cfg.data.length ∧ pm.2 < cfg.macd.length)
    (signals : List (Option String)) :
    ∃ s, divergence_detector cfg pairs signals = Except.ok s ∧
      s.length = signals.length := by
  unfold divergence_detector
  obtain ⟨st', h1, h2⟩ := outerLoop_ok cfg hall pairs
    { signals := signals, price_rd := [], macd_rd := []
    , price_hd := [], macd_hd := [] } hb
  rw [h1]
  exact ⟨st'.signals, rfl, h2⟩

theorem splitPeaks_ok (macd : List PFl) (idxs : List ℕ)
    (h : ∀ i ∈ idxs, i < macd.length) :
    ∃ lh, splitPeaks macd idxs = Except.ok lh ∧
      (∀ i ∈ lh.1, i ∈ idxs) ∧ (∀ i ∈ lh.2, i ∈ idxs) := by
  induction idxs with
  | nil => exact ⟨([], []), rfl, by simp, by simp⟩
  | cons idx rest ih =>
      have hidx : idx < macd.length := h idx (by simp)
      have hget : iloc macd idx = Except.ok (macd.get ⟨idx, hidx⟩) := by
        simp [iloc, List.getElem?_eq_getElem hidx]
      obtain ⟨lh, h1, h2, h3⟩ := ih (fun i hi => h i (by simp [hi]))
      refine ⟨((if ltF (macd.get ⟨idx, hidx⟩) (some 0) then idx :: lh.1
          else lh.1),
        (if gtF (macd.get ⟨idx, hidx⟩) (some 0) then idx :: lh.2
          else lh.2)), ?_, ?_, ?_⟩
      · unfold splitPeaks
        rw [hget, h1]
      · intro i hi
        by_cases hlt : ltF (macd.get ⟨idx, hidx⟩) (some 0) = true
        · rw [if_pos hlt] at hi
          rcases List.mem_cons.mp hi with hi | hi
          · simp [hi]
          · simp [h2 i hi]
        · rw [if_neg hlt] at hi
          simp [h2 i hi]
      · intro i hi
        by_cases hgt : gtF (macd.get ⟨idx, hidx⟩) (some 0) = true
        · rw [if_pos hgt] at hi
          rcases List.mem_cons.mp hi with hi | hi
          · simp [hi]
          · simp [h3 i hi]
        · rw [if_neg hgt] at hi
          simp [h3 i hi]

theorem foldl_sel_mem (p : ℕ) : ∀ (cs : List ℕ) (c : ℕ),
    (cs.foldl
      (fun (best mm : ℕ) =>
        if ((mm : ℤ) - (p : ℤ)).natAbs < ((best : ℤ) - (p : ℤ)).natAbs then mm
        else best) c) ∈ c :: cs := by
  intro cs
  induction cs with
  | nil => intro c; simp
  | cons d cs ih =>
      intro c
      have hstep := ih (if ((d : ℤ) - (p : ℤ)).natAbs <
          ((c : ℤ) - (p : ℤ)).natAbs then d else c)
      rcases List.mem_cons.mp hstep with heq | hmem
      · rw [List.foldl_cons, heq]
        by_cases hlt : ((d : ℤ) - (p : ℤ)).natAbs < ((c : ℤ) - (p : ℤ)).natAbs
        · rw [if_pos hlt]; simp
        · rw [if_neg hlt]; simp
      · rw [List.foldl_cons]
        simp [hmem]

theorem closestExtremum_mem (p : ℕ) (ms : List ℕ) (d : ℕ) (x : ℕ)
    (h : closestExtremum p ms d = some x) : x ∈ ms := by
  unfold closestExtremum at h
  dsimp only at h
  split at h
  · exact absurd h (by simp)
  · rename_i c cs hc
    simp only [Option.some_inj] at h
    have hmem := foldl_sel_mem p cs c
    rw [h] at hmem
    rw [← hc] at hmem
    exact List.mem_of_mem_filter hmem

theorem assocSet_mem (l : List (ℕ × ℕ)) (k v : ℕ) (pm : ℕ × ℕ)
    (h : pm ∈ assocSet l k v) : pm ∈ l ∨ pm = (k, v) := by
  unfold assocSet at h
  by_cases hany : l.any (fun kv => kv.1 == k) = true
  · rw [if_pos hany] at h
    obtain ⟨kv, hkv, hmap⟩ := List.mem_map.mp h
    by_cases hk : kv.1 == k
    · right
      rw [if_pos hk] at hmap
      exact hmap.symm
    · left
      rw [if_neg hk] at hmap
      rw [← hmap]
      exact hkv
  · rw [if_neg hany] at h
    rcases List.mem_append.mp h with h | h
    · exact Or.inl h
    · exact Or.inr (by simpa using h)

theorem map_extrema_mem (ms : List ℕ) (d : ℕ) :
    ∀ (ps : List ℕ) (acc : List (ℕ × ℕ)) (pm : ℕ × ℕ),
      pm ∈ ps.foldl
        (fun acc p =>
          match closestExtremum p ms d with
          | none => acc
          | some m => assocSet acc p m) acc →
      pm ∈ acc ∨ (pm.1 ∈ ps ∧ pm.2 ∈ ms) := by
  intro ps
  induction ps with
  | nil => intro acc pm h; exact Or.inl (by simpa using h)
  | cons p ps ih =>
      intro acc pm h
      rw [List.foldl_cons] at h
      rcases ih _ pm h with hstep | hrest
      · cases hc : closestExtremum p ms d with
        | none =>
            rw [hc] at hstep
            exact Or.inl hstep
        | some m =>
            rw [hc] at hstep
            rcases assocSet_mem acc p m pm hstep with hacc | heq
            · exact Or.inl hacc
            · refine Or.inr ⟨?_, ?_⟩
              · rw [heq]; simp
              · rw [heq]
                exact closestExtremum_mem p ms d m hc
      · exact Or.inr ⟨by simp [hrest.1], hrest.2⟩

/-- C9: generate_signals never writes a signal outside the series: with
every peak index in bounds and a NaN-free MACD series, the whole pipeline
runs without an index error (every signal write is guarded by
p2 + interspace < len(signals), and the out-of-bounds target is skipped)
and the returned signal series has exactly the length of the input bar
series (1:1 alignment). -/
theorem c9_signal_bounds (data : List Bar) (macd : List PFl)
    (high_peaks low_peaks macd_peaks : List ℕ) (interspace : ℕ)
    (treshhold : ℤ) (price_deep macd_deep tolerance : ℚ) (dtype side : String)
    (hhp : ∀ p ∈ high_peaks, p < data.length)
    (hlp : ∀ p ∈ low_peaks, p < data.length)
    (hmp : ∀ m ∈ macd_peaks, m < macd.length)
    (hnn : ∀ x ∈ macd, x ≠ none) :
    ∃ s, generate_signals data macd high_peaks low_peaks macd_peaks
        interspace treshhold price_deep macd_deep tolerance dtype side =
      Except.ok s ∧ s.length = data.length := by
  obtain ⟨lh, hsplit, hlow, hhigh⟩ := splitPeaks_ok macd macd_peaks hmp
  have hbhigh : ∀ pm ∈ map_extrema high_peaks lh.2 6,
      pm.1 < data.length ∧ pm.2 < macd.length := by
    intro pm hpm
    rcases map_extrema_mem lh.2 6 high_peaks [] pm hpm with h | h
    · exact absurd h (by simp)
    · exact ⟨hhp pm.1 h.1, hmp pm.2 (hhigh pm.2 h.2)⟩
  have hblow : ∀ pm ∈ map_extrema low_peaks lh.1 6,
      pm.1 < data.length ∧ pm.2 < macd.length := by
    intro pm hpm
    rcases map_extrema_mem lh.1 6 low_peaks [] pm hpm with h | h
    · exact absurd h (by simp)
    · exact ⟨hlp pm.1 h.1, hmp pm.2 (hlow pm.2 h.2)⟩
  unfold generate_signals
  rw [hsplit]
  dsimp only
  by_cases hempty : side = ""
  · rw [if_pos hempty]
    obtain ⟨s1, h1, h2⟩ := divergence_detector_ok
      { data := data, macd := macd, tolerance := tolerance
      , interspace := interspace, side := "buy", tresh := treshhold
      , price_diff := price_deep, macd_diff := macd_deep, dtype := dtype }
      hnn (map_extrema low_peaks lh.1 6) hblow
      (List.replicate data.length none)
    rw [h1]
    obtain ⟨s2, h3, h4⟩ := divergence_detector_ok
      { data := data, macd := macd, tolerance := tolerance
      , interspace := interspace, side := "sell", tresh := treshhold
      , price_diff := price_deep, macd_diff := macd_deep, dtype := dtype }
      hnn (map_extrema high_peaks lh.2 6) hbhigh s1
    refine ⟨s2, h3, ?_⟩
    rw [h4, h2]
    simp
  · rw [if_neg hempty]
    by_cases hbuy : side = "buy"
    · rw [if_pos hbuy]
      obtain ⟨s1, h1, h2⟩ := divergence_detector_ok
        { data := data, macd := macd, tolerance := tolerance
        , interspace := interspace, side := "buy", tresh := treshhold
        , price_diff := price_deep, macd_diff := macd_deep, dtype := dtype }
        hnn (map_extrema low_peaks lh.1 6) hblow
        (List.replicate data.length none)
      refine ⟨s1, h1, ?_⟩
      rw [h2]
      simp
    · rw [if_neg hbuy]
      by_cases hsell : side = "sell"
      · rw [if_pos hsell]
        obtain ⟨s1, h1, h2⟩ := divergence_detector_ok
          { data := data, macd := macd, tolerance := tolerance
          , interspace := interspace, side := "sell", tresh := treshhold
          , price_diff := price_deep, macd_diff := macd_deep, dtype := dtype }
          hnn (map_extrema high_peaks lh.2 6) hbhigh
          (List.replicate data.length none)
        refine ⟨s1, h1, ?_⟩
        rw [h2]
        simp
      · rw [if_neg hsell]
        exact ⟨List.replicate data.length none, rfl, by simp⟩

/-- Witness for C9 at a concrete series whose second extremum plus
interspace overflows the series length. -/
theorem c9_signal_bounds_witness :
    ∃ s, generate_signals
        [⟨1, 0⟩, ⟨2, 1⟩, ⟨3, 2⟩, ⟨10, 4⟩, ⟨4, 3⟩, ⟨12, 6⟩]
        [some 1, some 2, some 3, some 5, some 4, some 3]
        [3, 5] [0] [3, 5] 3 100 0 0 1 "" "" =
      Except.ok s ∧ s.length = 6 := by
  refine c9_signal_bounds
    [⟨1, 0⟩, ⟨2, 1⟩, ⟨3, 2⟩, ⟨10, 4⟩, ⟨4, 3⟩, ⟨12, 6⟩]
    [some 1, some 2, some 3, some 5, some 4, some 3]
    [3, 5] [0] [3, 5] 3 100 0 0 1 "" "" ?_ ?_ ?_ ?_
  · intro p hp
    simp only [List.mem_cons, List.not_mem_nil, or_false] at hp
    rcases hp with hp | hp <;> simp [hp]
  · intro p hp
    simp only [List.mem_singleton] at hp
    simp [hp]
  · intro m hm
    simp only [List.mem_cons, List.not_mem_nil, or_false] at hm
    rcases hm with hm | hm <;> simp [hm]
  · intro x hx
    simp only [List.mem_cons, List.not_mem_nil, or_false] at hx
    rcases hx with hx | hx | hx | hx | hx | hx <;> simp [hx]

end Marketlib
